import Mathlib

/-!
A shallow embedding of the storage core of bitcask-lite-go.

The development follows the two source files of the storage core:

* `concurrentmap.go`: the sharded index (`mp`, `hash`, `getShard`, `SetKey`,
  `GetKey`, `DeleteKey`, `MSet`);
* `store.go`: the log store engine (`Set`, `Get`, `nextLogFile`,
  `parseLogFile`, `CreateLogStore`, `createLogFile`).

Byte strings (Go `string` and `[]byte`) are lists of `UInt8`.  A Go
`map[string]T` is an association list that holds each key at most once.
Locks are not modelled: every operation is executed atomically.
-/

namespace Bitcask

/-! ## Byte strings and Go maps -/

/-- A Go `string` or `[]byte`. -/
abbrev Bytes := List UInt8

/-- The separator byte, `const COMMA byte = 44`. -/
def COMMA : UInt8 := 44

/-- A Go `map[string]V`, as an association list. -/
abbrev GoMap (V : Type) := List (Bytes × V)

namespace GoMap

variable {V : Type}

/-- Map lookup `v, ok := m[k]`. -/
def get : GoMap V → Bytes → Option V
  | [], _ => none
  | (k', v) :: t, k => if k' = k then some v else get t k

/-- The builtin `delete(m, k)`. -/
def delete (m : GoMap V) (k : Bytes) : GoMap V :=
  m.filter (fun p => decide (p.1 ≠ k))

/-- Map assignment `m[k] = v`. -/
def set (m : GoMap V) (k : Bytes) (v : V) : GoMap V :=
  (k, v) :: delete m k

/-- The keys held by a map. -/
def keys (m : GoMap V) : List Bytes :=
  m.map Prod.fst

end GoMap

/-! ## concurrentmap.go -/

/-- The number of shards, `const SHARDS = 128`. -/
def SHARDS : Nat := 128

/-- One shard: `MapShard[T]` without its mutex. -/
structure MapShard (V : Type) where
  items : GoMap V
  deriving DecidableEq, Repr

/-- The sharded map `mp[T]`, a slice of shards. -/
abbrev mp (V : Type) := List (MapShard V)

/-- The function `CreateMap`: 128 shards, each with an empty map. -/
def CreateMap (V : Type) : mp V :=
  List.replicate SHARDS ⟨[]⟩

/-- One round of the loop of `hash`: `hsh = hsh*prime32; hsh = hsh ^ uint32(key[i])`
on `uint32`. -/
def hashStep (hsh : Nat) (b : UInt8) : Nat :=
  ((hsh * 16777619) % 2 ^ 32) ^^^ b.toNat

/-- The function `hash`, a 32-bit FNV fold started at 2166136261. -/
def hash (key : Bytes) : Nat :=
  key.foldl hashStep 2166136261

/-- The index computed by `getShard`: `uint(hshK) % uint(SHARDS)`. -/
def shardIndex (key : Bytes) : Nat :=
  hash key % SHARDS

/-- The function `getShard`: the shard `mp[uint(hshK)%uint(SHARDS)]`. -/
def getShard {V : Type} (m : mp V) (key : Bytes) : MapShard V :=
  m.getD (shardIndex key) ⟨[]⟩

/-- The function `SetKey`: `shard.items[key] = value` on the key's shard. -/
def SetKey {V : Type} (m : mp V) (key : Bytes) (value : V) : mp V :=
  m.set (shardIndex key) ⟨(getShard m key).items.set key value⟩

/-- The function `GetKey`: `v, ok := shard.items[key]` on the key's shard. -/
def GetKey {V : Type} (m : mp V) (key : Bytes) : Option V :=
  (getShard m key).items.get key

/-- The function `DeleteKey`: `delete(shard.items, key)` on the key's shard. -/
def DeleteKey {V : Type} (m : mp V) (key : Bytes) : mp V :=
  m.set (shardIndex key) ⟨(getShard m key).items.delete key⟩

/-- The function `MSet`: every pair of `data` is assigned in its key's shard.
Go ranges over a map in an unspecified order; a map holds each key once, so
the result does not depend on that order.  The fold visits the association
list from its tail, so that for a list naming a key twice the binding that
`GoMap.get` reports is also the one assigned last. -/
def MSet {V : Type} (m : mp V) (data : GoMap V) : mp V :=
  data.foldr (fun kv acc => SetKey acc kv.1 kv.2) m

/-- The union of the shard maps, read as one key-to-value map: the value
bound to `k` in the first shard that holds `k`. -/
def union {V : Type} (m : mp V) (k : Bytes) : Option V :=
  m.findSome? (fun sh => sh.items.get k)

/-- The indexes that the API can build: `CreateMap` followed by any number of
`SetKey`, `DeleteKey` and `MSet` calls. -/
inductive Built {V : Type} : mp V → Prop
  | create : Built (CreateMap V)
  | setKey (m : mp V) (k : Bytes) (v : V) : Built m → Built (SetKey m k v)
  | deleteKey (m : mp V) (k : Bytes) : Built m → Built (DeleteKey m k)
  | mset (m : mp V) (data : GoMap V) : Built m → Built (MSet m data)

/-- Shard ownership: the slice has 128 shards and every key stored in shard
number `i` hashes to `i`. -/
def Owned {V : Type} (m : mp V) : Prop :=
  m.length = SHARDS ∧
    ∀ (i : Nat) (sh : MapShard V), m[i]? = some sh → ∀ k ∈ sh.items.keys, shardIndex k = i

/-! ## store.go: files, records and the write path -/

/-- The bytes of an ASCII string literal. -/
def str (s : String) : Bytes :=
  s.toList.map (fun c => c.toNat.toUInt8)

/-- The name of a file of the log directory.  The directory is fixed, and
`path.Join(logDir, ·)` is applied to every name alike, so a file is known by
its name inside the directory.  Go compares strings byte by byte, which is the
lexicographic order of `List UInt8`. -/
abbrev FileName := Bytes

/-- The log directory: every file name with the content of the file, each
name at most once. -/
abbrev FS := List (FileName × Bytes)

namespace FS

/-- The content of a file, if the file exists. -/
def read : FS → FileName → Option Bytes
  | [], _ => none
  | (n, c) :: t, name => if n = name then some c else read t name

/-- The effect of `os.Create`: the file exists afterwards and is empty (an
existing file is truncated). -/
def create (fs : FS) (name : FileName) : FS :=
  (name, []) :: fs.filter (fun p => decide (p.1 ≠ name))

/-- The effect of a write on the handle that appends to the file. -/
def append (fs : FS) (name : FileName) (data : Bytes) : FS :=
  fs.map (fun p => if p.1 = name then (p.1, p.2 ++ data) else p)

end FS

/-- The errors of the engine, named after the operation that failed. -/
inductive Err
  | stat | create | write | openFile | seek | copy
  | mkdir | readDir
  | parseExpire | parseKeysize | parseValuesize | parseKey | skipValue
  deriving DecidableEq, Repr

/-- The struct `Item`: where the latest value of a key lies. -/
structure Item where
  file : FileName
  expire : Int
  valuePos : Int
  valueSize : Int
  deriving DecidableEq, Repr

/-- An `*os.File` opened for writing: the file it names, and whether the
handle has been closed. -/
structure File where
  name : FileName
  closed : Bool
  deriving DecidableEq, Repr

/-- The struct `Store`: the index, the active segment handle and
`opts.maxLogFileBytes`. -/
structure Store where
  mp : mp Item
  logFile : File
  maxLogFileBytes : Int
  deriving DecidableEq, Repr

/-- The default threshold `MAX_LOG_FILE_BYTES`: 1680 bytes (the comment on the
constant in the source says 10 MB). -/
def MAX_LOG_FILE_BYTES : Int := 1680

/-- The ASCII digit of `d < 10`. -/
def digit (d : Nat) : UInt8 :=
  (48 + d).toUInt8

/-- The digit loop of `%d`: the last digit is peeled off until the number is
below ten. -/
def formatBits : Nat → Nat → Bytes → Bytes
  | 0, _, acc => acc
  | fuel + 1, n, acc =>
    if n < 10 then digit n :: acc else formatBits fuel (n / 10) (digit (n % 10) :: acc)

/-- The decimal text of a natural number. -/
def formatNat (n : Nat) : Bytes :=
  formatBits (n + 1) n []

/-- The verb `%d` of `fmt.Sprintf` on an `int`. -/
def formatInt (i : Int) : Bytes :=
  if i < 0 then 45 :: formatNat i.natAbs else formatNat i.toNat

/-- What the environment decides during one `Set`: whether `Stat` fails, the
clock and the random suffix that `createLogFile` would use, whether
`os.Create` fails, whether `Write` fails (`some n`: after `n` bytes), and the
clock read by the expiry test. -/
structure SetEnv where
  statFails : Bool
  nameTime : Int
  suffix : Bytes
  createFails : Bool
  written : Option Nat
  now : Int
  deriving DecidableEq, Repr

/-- The segment name `fmt.Sprintf("%d-%s", time.Now().UnixMilli(), rndFileString(16))`. -/
def logFileId (t : Int) (suffix : Bytes) : FileName :=
  formatInt t ++ [45] ++ suffix

/-- The function `createLogFile`: `os.Create` on a new name. -/
def createLogFile (t : Int) (suffix : Bytes) (fails : Bool) (fs : FS) : Option (File × FS) :=
  if fails then none
  else some (⟨logFileId t suffix, false⟩, fs.create (logFileId t suffix))

/-- The function `nextLogFile`.  The deferred `Close` is bound to the handle
that is active on entry; on failure that closed handle stays in the store. -/
def nextLogFile (env : SetEnv) (store : Store) (fs : FS) : Option Err × Store × FS :=
  match createLogFile env.nameTime env.suffix env.createFails fs with
  | none => (some Err.create, { store with logFile := { store.logFile with closed := true } }, fs)
  | some (f, fs') => (none, { store with logFile := f }, fs')

/-- The call `store.logFile.Stat()` followed by `fi.Size()`. -/
def statSize (fails : Bool) (f : File) (fs : FS) : Option Nat :=
  if fails || f.closed then none else (fs.read f.name).map List.length

/-- The call `store.logFile.Write(val)`. -/
def writeFile (written : Option Nat) (f : File) (fs : FS) (val : Bytes) : Option Err × FS :=
  if f.closed then (some Err.write, fs)
  else
    match written with
    | some n => (some Err.write, fs.append f.name (val.take n))
    | none => (none, fs.append f.name val)

/-- The header `fmt.Sprintf("%d,%d,%d,%s,", expire, len(key), len(data), key)`:
the three numbers are decimal text of variable width (the comment in the source
speaks of fields of 4 bytes). -/
def recordLine (key : Bytes) (expire : Int) (data : Bytes) : Bytes :=
  formatInt expire ++ [COMMA] ++ formatInt key.length ++ [COMMA] ++
    formatInt data.length ++ [COMMA] ++ key ++ [COMMA]

/-- The bytes `append(append(line, data...), ","...)` that `Set` writes. -/
def recordBytes (key : Bytes) (expire : Int) (data : Bytes) : Bytes :=
  recordLine key expire data ++ data ++ [COMMA]

/-- The test `end+lineLength >= store.opts.maxLogFileBytes` of `Set`. -/
def rollsOver (size : Nat) (key : Bytes) (expire : Int) (data : Bytes) (max : Int) : Bool :=
  decide (max ≤ (size : Int) + (((recordLine key expire data).length + data.length : Nat) : Int))

/-- The method `Store.Set`.  The result is the returned error, the store and
the directory after the call. -/
def Set (env : SetEnv) (store : Store) (fs : FS) (key : Bytes) (expire : Int) (data : Bytes) :
    Option Err × Store × FS :=
  match statSize env.statFails store.logFile fs with
  | none => (some Err.stat, store, fs)
  | some size =>
    let line := recordLine key expire data
    let rolled := rollsOver size key expire data store.maxLogFileBytes
    match (if rolled then nextLogFile env store fs else (none, store, fs)) with
    | (some e, store1, fs1) => (some e, store1, fs1)
    | (none, store1, fs1) =>
      let end_ : Nat := if rolled then 0 else size
      match writeFile env.written store1.logFile fs1 (recordBytes key expire data) with
      | (some e, fs2) => (some e, store1, fs2)
      | (none, fs2) =>
        let item : Item :=
          ⟨store1.logFile.name, expire, ((end_ + line.length : Nat) : Int), (data.length : Int)⟩
        if expire ≤ env.now then
          (none, { store1 with mp := DeleteKey store1.mp key }, fs2)
        else
          (none, { store1 with mp := SetKey store1.mp key item }, fs2)

/-! ## store.go: the read path -/

/-- What the environment decides during one `Get`: the clock, and whether
`os.Open` fails. -/
structure GetEnv where
  now : Int
  openFails : Bool
  deriving DecidableEq, Repr

/-- The result of `Get`: the two returned values and the bytes written to the
sink. -/
structure GetResult where
  found : Bool
  err : Option Err
  sink : Bytes
  deriving DecidableEq, Repr

/-- The method `Store.Get`.  `Seek` to a negative offset fails; `io.CopyN`
copies `valueSize` bytes and reports an error when the file ends before
that. -/
def Get (env : GetEnv) (store : Store) (fs : FS) (key : Bytes) : GetResult × Store :=
  match GetKey store.mp key with
  | none => (⟨false, none, []⟩, store)
  | some item =>
    if item.expire ≤ env.now then
      (⟨false, none, []⟩, { store with mp := DeleteKey store.mp key })
    else
      match (if env.openFails then none else fs.read item.file) with
      | none => (⟨false, some Err.openFile, []⟩, store)
      | some content =>
        if item.valuePos < 0 then (⟨false, some Err.seek, []⟩, store)
        else
          let out := (content.drop item.valuePos.toNat).take item.valueSize.toNat
          if item.valueSize ≤ (out.length : Int) then (⟨true, none, out⟩, store)
          else (⟨true, some Err.copy, out⟩, store)

/-! ## bufio.Reader over a file

`parseLogFile` reads a segment through `bufio.NewReader(f)`.  The reader holds
a window of the file in a buffer of `bufSize` bytes; `Read` hands out buffered
bytes only, so its result depends on where the window ends.  A read on the
file returns as many bytes as are asked for, or all that are left. -/

/-- The buffer size of `bufio.NewReader`, `defaultBufSize`. -/
def bufSize : Nat := 4096

/-- The errors a reader call returns. -/
inductive RErr
  | eof | bufferFull | negativeCount | noProgress
  deriving DecidableEq, Repr

/-- The state of a `bufio.Reader`: the bytes of the file not yet handed to the
caller, how many of them are in the buffer (`b.w - b.r`), and whether
`b.err` holds `io.EOF`. -/
structure Reader where
  rest : Bytes
  nbuf : Nat
  err : Bool
  deriving DecidableEq, Repr

namespace Reader

/-- The method `fill`: one read on the file into the free part of the buffer.
A read that yields nothing is the end of the file. -/
def fill (b : Reader) : Reader :=
  let n := min (bufSize - b.nbuf) (b.rest.length - b.nbuf)
  if n = 0 then { b with err := true } else { b with nbuf := b.nbuf + n }

/-- Hand the first `n` bytes to the caller. -/
def advance (b : Reader) (n : Nat) : Reader :=
  { b with rest := b.rest.drop n, nbuf := b.nbuf - n }

/-- The method `ReadSlice`: search the buffer, else report a pending error,
else report a full buffer, else fill and search again. -/
def ReadSlice : Nat → Reader → UInt8 → Bytes × Option RErr × Reader
  | 0, b, _ => ([], some RErr.noProgress, b)
  | fuel + 1, b, delim =>
    let buffered := b.rest.take b.nbuf
    if delim ∈ buffered then
      let i := buffered.indexOf delim
      (b.rest.take (i + 1), none, b.advance (i + 1))
    else if b.err then
      (buffered, some RErr.eof, { b.advance b.nbuf with err := false })
    else if bufSize ≤ b.nbuf then
      (buffered, some RErr.bufferFull, b.advance b.nbuf)
    else
      ReadSlice fuel b.fill delim

/-- The loop of `collectFragments`: full buffers are accumulated until
`ReadSlice` returns the final fragment or an error. -/
def readBytesLoop : Nat → Reader → UInt8 → Bytes → Bytes × Option RErr × Reader
  | 0, b, _, acc => (acc, some RErr.noProgress, b)
  | fuel + 1, b, delim, acc =>
    match b.ReadSlice 3 delim with
    | (frag, none, b') => (acc ++ frag, none, b')
    | (frag, some RErr.bufferFull, b') => readBytesLoop fuel b' delim (acc ++ frag)
    | (frag, some e, b') => (acc ++ frag, some e, b')

/-- The method `ReadBytes`. -/
def ReadBytes (b : Reader) (delim : UInt8) : Bytes × Option RErr × Reader :=
  readBytesLoop (b.rest.length + 1) b delim []

/-- The method `Read` on a slice of length `n`: the bytes read, the error and
the reader afterwards.  With an empty buffer one read on the file is made
(straight into the slice when it is at least as long as the buffer); then
what the buffer holds is copied, at most `n` bytes. -/
def Read (b : Reader) (n : Nat) : Bytes × Option RErr × Reader :=
  if n = 0 then
    if 0 < b.nbuf then ([], none, b)
    else ([], if b.err then some RErr.eof else none, { b with err := false })
  else if b.nbuf = 0 then
    if b.err then ([], some RErr.eof, { b with err := false })
    else if bufSize ≤ n then
      let m := min n b.rest.length
      if m = 0 then ([], some RErr.eof, b)
      else (b.rest.take m, none, { b with rest := b.rest.drop m })
    else
      let m := min bufSize b.rest.length
      if m = 0 then ([], some RErr.eof, b)
      else
        let c := min n m
        (b.rest.take c, none, { rest := b.rest.drop c, nbuf := m - c, err := false })
  else
    let c := min n b.nbuf
    (b.rest.take c, none, b.advance c)

/-- The loop of `Discard`: skip what is buffered, filling an empty buffer
first, until `remain` bytes are skipped or the file ends. -/
def discardLoop : Nat → Reader → Nat → Nat → Nat × Option RErr × Reader
  | 0, b, remain, n => (n - remain, some RErr.noProgress, b)
  | fuel + 1, b, remain, n =>
    let b1 := if b.nbuf = 0 then b.fill else b
    let skip := min b1.nbuf remain
    let b2 := b1.advance skip
    if remain - skip = 0 then (n, none, b2)
    else if b2.err then (n - (remain - skip), some RErr.eof, { b2 with err := false })
    else discardLoop fuel b2 (remain - skip) n

/-- The method `Discard`. -/
def Discard (b : Reader) (n : Int) : Nat × Option RErr × Reader :=
  if n < 0 then (0, some RErr.negativeCount, b)
  else if n = 0 then (0, none, b)
  else discardLoop (n.toNat + 1) b n.toNat n.toNat

end Reader

/-! ## store.go: recovery -/

/-- The digits of `strconv.Atoi`, most significant first. -/
def parseDigits : Bytes → Nat → Option Nat
  | [], acc => some acc
  | c :: t, acc =>
    if 48 ≤ c.toNat ∧ c.toNat ≤ 57 then parseDigits t (acc * 10 + (c.toNat - 48)) else none

/-- The function `strconv.Atoi`: an optional sign, then one or more decimal
digits, with a value that fits an `int` of 64 bits. -/
def Atoi (s : Bytes) : Option Int :=
  let neg := decide (s.head? = some 45)
  let ds := if s.head? = some 45 ∨ s.head? = some 43 then s.tail else s
  if ds = [] then none
  else
    match parseDigits ds 0 with
    | none => none
    | some n =>
      let v : Int := if neg then -(n : Int) else (n : Int)
      if -(2 : Int) ^ 63 ≤ v ∧ v ≤ 2 ^ 63 - 1 then some v else none

/-- The sum `x + 1` on an `int` of 64 bits. -/
def succ64 (x : Int) : Int :=
  (x + 1 + 2 ^ 63) % 2 ^ 64 - 2 ^ 63

/-- The largest allocation that the Go runtime accepts on 64-bit Linux,
`maxAlloc` of `runtime/malloc.go`: `make` with a longer length panics with
"len out of range". -/
def maxAlloc : Int := 2 ^ 48

/-- What `parseLogFile` does: it returns the items, returns an error, or
panics. -/
inductive ParseResult
  | ok (items : GoMap Item)
  | error (e : Err)
  | panic
  deriving DecidableEq, Repr

/-- The loop of `parseLogFile`, one record per round.  `now` is the clock,
taken to stand still during the replay of one directory.  In
`make([]byte, keysize+1)` a negative length and a length above `maxAlloc`
panic, and so does a negative bound in `keybuffer[:keysize]`; an allocation
within `maxAlloc` is taken to succeed, whatever memory the machine has.  A
short `Read` leaves the rest of `keybuffer` zero. -/
def parseLoop (path : FileName) (now : Int) :
    Nat → Reader → Nat → GoMap Item → ParseResult
  | 0, _, _, _ => ParseResult.error Err.parseExpire
  | fuel + 1, r, curr, items =>
    match r.ReadBytes COMMA with
    | (_, some RErr.eof, _) => ParseResult.ok items
    | (_, some _, _) => ParseResult.error Err.parseExpire
    | (_expire, none, r1) =>
      match Atoi _expire.dropLast with
      | none => ParseResult.error Err.parseExpire
      | some expire =>
        match r1.ReadBytes COMMA with
        | (_, some _, _) => ParseResult.error Err.parseKeysize
        | (_keysize, none, r2) =>
          match Atoi _keysize.dropLast with
          | none => ParseResult.error Err.parseKeysize
          | some keysize =>
            match r2.ReadBytes COMMA with
            | (_, some _, _) => ParseResult.error Err.parseValuesize
            | (_valuesize, none, r3) =>
              match Atoi _valuesize.dropLast with
              | none => ParseResult.error Err.parseValuesize
              | some valuesize =>
                if succ64 keysize < 0 ∨ maxAlloc < succ64 keysize then ParseResult.panic
                else
                  match r3.Read (succ64 keysize).toNat with
                  | (_, some _, _) => ParseResult.error Err.parseKey
                  | (got, none, r4) =>
                    if keysize < 0 then ParseResult.panic
                    else
                      let keybuffer :=
                        got ++ List.replicate ((succ64 keysize).toNat - got.length) 0
                      let key := keybuffer.take keysize.toNat
                      let valueOffset :=
                        curr + _expire.length + _keysize.length + _valuesize.length + got.length
                      match r4.Discard (succ64 valuesize) with
                      | (_, some _, _) => ParseResult.error Err.skipValue
                      | (n, none, r5) =>
                        parseLoop path now fuel r5 (valueOffset + n)
                          (if now < expire then
                            items.set key ⟨path, expire, (valueOffset : Int), valuesize⟩
                          else items.delete keybuffer)

/-- The function `parseLogFile` on a file with the given content. -/
def parseLogFile (path : FileName) (now : Int) (content : Bytes) : ParseResult :=
  parseLoop path now (content.length + 1) ⟨content, 0, false⟩ 0 []

/-- What the environment decides during `CreateLogStore`: whether `MkdirAll`,
`ReadDir`, `Stat`, `OpenFile` or `os.Create` fail, the clock during the
replay, and the clock and random suffix that `createLogFile` would use. -/
structure CreateEnv where
  mkdirFails : Bool
  readDirFails : Bool
  statFails : Bool
  openFails : Bool
  createFails : Bool
  now : Int
  nameTime : Int
  suffix : Bytes
  deriving DecidableEq, Repr

/-- What `CreateLogStore` does: it returns a store, returns an error, or
panics inside the parser. -/
inductive CreateResult
  | ok (store : Store) (fs : FS)
  | error (e : Err)
  | panic
  deriving DecidableEq, Repr

/-- The directory listing after `sort.Slice` by name. -/
def sortedFiles (fs : FS) : FS :=
  fs.insertionSort (fun a b => a.1 ≤ b.1)

/-- The replay loop of `CreateLogStore`: each file is parsed and its items are
merged into the index with `MSet`. -/
def replay (now : Int) : FS → mp Item → Except ParseResult (mp Item)
  | [], m => Except.ok m
  | (name, content) :: rest, m =>
    match parseLogFile name now content with
    | ParseResult.ok keys => replay now rest (MSet m keys)
    | other => Except.error other

/-- The function `CreateLogStore` on a directory with content `fs`; `opts` is
the threshold, `none` for a nil `opts`. -/
def CreateLogStore (env : CreateEnv) (fs : FS) (opts : Option Int) : CreateResult :=
  let max := opts.getD MAX_LOG_FILE_BYTES
  if env.mkdirFails then CreateResult.error Err.mkdir
  else if env.readDirFails then CreateResult.error Err.readDir
  else
    let logFiles := sortedFiles fs
    match replay env.now logFiles (CreateMap Item) with
    | Except.error ParseResult.panic => CreateResult.panic
    | Except.error (ParseResult.error e) => CreateResult.error e
    | Except.error (ParseResult.ok _) => CreateResult.panic
    | Except.ok concurrentMap =>
      match logFiles.getLast? with
      | some (latest, content) =>
        if env.statFails then CreateResult.error Err.stat
        else if max ≤ (content.length : Int) then
          match createLogFile env.nameTime env.suffix env.createFails fs with
          | none => CreateResult.error Err.create
          | some (f, fs') => CreateResult.ok ⟨concurrentMap, f, max⟩ fs'
        else if env.openFails then CreateResult.error Err.openFile
        else CreateResult.ok ⟨concurrentMap, ⟨latest, false⟩, max⟩ fs
      | none =>
        match createLogFile env.nameTime env.suffix env.createFails fs with
        | none => CreateResult.error Err.create
        | some (f, fs') => CreateResult.ok ⟨concurrentMap, f, max⟩ fs'

/-! ## Definitions used to state the claims -/

/-- The record of the grammar of section 6.3 of the specification, written
after its words: `expiry "," keylen "," valuelen "," key value ","`. -/
def specRecord (key : Bytes) (expire : Int) (data : Bytes) : Bytes :=
  formatInt expire ++ [COMMA] ++ formatInt key.length ++ [COMMA] ++
    formatInt data.length ++ [COMMA] ++ key ++ data ++ [COMMA]

/-- A `Set` environment without failures: the clock reads `now`, and a
rollover would create the segment `t-suffix`. -/
def SetEnv.quiet (now t : Int) (suffix : Bytes) : SetEnv :=
  ⟨false, t, suffix, false, none, now⟩

/-- A `CreateLogStore` environment without failures. -/
def CreateEnv.quiet (now t : Int) (suffix : Bytes) : CreateEnv :=
  ⟨false, false, false, false, false, now, t, suffix⟩

/-- A fresh store on an empty directory with the default threshold, as
`CreateLogStore` builds it at time 1 with suffix `a`. -/
def store0 : Store :=
  ⟨CreateMap Item, ⟨str "1-a", false⟩, MAX_LOG_FILE_BYTES⟩

/-- The directory of `store0`: one empty segment. -/
def fs0 : FS :=
  [(str "1-a", [])]

/-- The state after `Set("k", 5000, "v")` on `store0` at clock 1000. -/
def liveK : Option Err × Store × FS :=
  Set (SetEnv.quiet 1000 2 (str "b")) store0 fs0 (str "k") 5000 (str "v")

/-- The state after the delete `Set("k", 0, "")` that follows `liveK`. -/
def deletedK : Option Err × Store × FS :=
  Set (SetEnv.quiet 1000 2 (str "b")) liveK.2.1 liveK.2.2 (str "k") 0 []

/-- A reader never has more bytes in its buffer than the file has left. -/
def Reader.WF (b : Reader) : Prop :=
  b.nbuf ≤ b.rest.length

/-- An index entry lies inside a file of `total` bytes named `path`: the
offset is not negative and the value ends at or before the end of the file. -/
def ItemOk (path : FileName) (total : Nat) (item : Item) : Prop :=
  item.file = path ∧ 0 ≤ item.valuePos ∧ item.valuePos + max item.valueSize 0 ≤ (total : Int)

/-- The name that `createLogFile` would pick, a millisecond timestamp followed
by sixteen random letters, is not the name of a file of the directory. -/
def FreshName (t : Int) (suffix : Bytes) (fs : FS) : Prop :=
  fs.read (logFileId t suffix) = none

instance (t : Int) (suffix : Bytes) (fs : FS) : Decidable (FreshName t suffix fs) :=
  inferInstanceAs (Decidable (fs.read (logFileId t suffix) = none))

/-- The states of the engine with threshold `M`: a store created on an empty
directory, then driven by successful `Set` calls, by `Get` calls and by
restarts on the same directory with the same threshold.  No file operation
fails, and `createLogFile` picks a name that is not in use. -/
inductive Reachable (M : Int) : Store → FS → Prop
  | create (env : CreateEnv) (opts : Option Int) (s : Store) (fs : FS) :
      opts.getD MAX_LOG_FILE_BYTES = M →
      CreateLogStore env [] opts = CreateResult.ok s fs → Reachable M s fs
  | set (env : SetEnv) (s : Store) (fs : FS) (k : Bytes) (e : Int) (v : Bytes)
      (s' : Store) (fs' : FS) :
      Reachable M s fs → FreshName env.nameTime env.suffix fs →
      Set env s fs k e v = (none, s', fs') → Reachable M s' fs'
  | get (env : GetEnv) (s : Store) (fs : FS) (k : Bytes) (r : GetResult) (s' : Store) :
      Reachable M s fs → Get env s fs k = (r, s') → Reachable M s' fs
  | restart (env : CreateEnv) (s : Store) (fs : FS) (s' : Store) (fs' : FS) :
      Reachable M s fs → FreshName env.nameTime env.suffix fs →
      CreateLogStore env fs (some M) = CreateResult.ok s' fs' → Reachable M s' fs'

/-- The invariant of the reachable states: the threshold is `M`, the active
handle is open on an existing file, the index obeys shard ownership, every
index entry lies inside an existing file, and no file name occurs twice. -/
structure Inv (M : Int) (s : Store) (fs : FS) : Prop where
  hmax : s.maxLogFileBytes = M
  hopen : s.logFile.closed = false
  hfile : ∃ c, fs.read s.logFile.name = some c
  howned : Owned s.mp
  hidx : ∀ k item, GetKey s.mp k = some item →
    ∃ c, fs.read item.file = some c ∧ ItemOk item.file c.length item
  hnodup : (fs.map Prod.fst).Nodup

/-- Every segment has at most `M` bytes or is exactly one record. -/
def SizeOk (M : Int) (fs : FS) : Prop :=
  ∀ name c, fs.read name = some c →
    (c.length : Int) ≤ M ∨ ∃ k e v, c = recordBytes k e v

/-- The state after `Set("k,", 5000, "v")` on `store0` at clock 1000. -/
def commaKey : Option Err × Store × FS :=
  Set (SetEnv.quiet 1000 2 (str "b")) store0 fs0 (str "k,") 5000 (str "v")

/-- The state after the delete `Set("k", 0, "")` that follows `commaKey`. -/
def commaKeyDeleted : Option Err × Store × FS :=
  Set (SetEnv.quiet 1000 2 (str "b")) commaKey.2.1 commaKey.2.2 (str "k") 0 []

/-- What `Get` hands back for an index entry, given the content of the
entry's file: the bytes at `[valuePos, valuePos + valueSize)`. -/
def valueBytes (item : Item) (content : Bytes) : Bytes :=
  (content.drop item.valuePos.toNat).take item.valueSize.toNat

/-! ## Segment names -/

/-- The alphabet `letterBytes` of `rndFileString`. -/
def letterBytes : Bytes :=
  str "abcdefghijklmnopqrstuvwxyzABCDEFGHIJKLMNOPQRSTUVWXYZ"

/-- The function `rndFileString`: `b[i] = letterBytes[rand.Intn(len(letterBytes))]`
for each of the `length` positions, where `rand i` is the `i`-th draw. -/
def rndFileString (length : Nat) (rand : Nat → Nat) : Bytes :=
  (List.range length).map (fun i => letterBytes.getD (rand i % letterBytes.length) 0)

/-- Go's `<` on strings, which `CreateLogStore` hands to `sort.Slice`: the
lexicographic order of the bytes. -/
def nameLess (a b : FileName) : Prop :=
  List.lt a b

instance (a b : FileName) : Decidable (nameLess a b) :=
  List.hasDecidableLt a b

/-! ## Concrete states used to evaluate the code -/

/-- The value of the rollover scenario, forty bytes. -/
def value40 : Bytes :=
  str "1234567890123456789012345678901234567890"

/-- A fresh store on an empty directory with threshold 64, as `CreateLogStore`
builds it at time 1 with suffix `a`. -/
def store64 : Store :=
  ⟨CreateMap Item, ⟨str "1-a", false⟩, 64⟩

/-- The state after `Set("a", 5000000000000, value40)` on `store64`. -/
def filled64 : Option Err × Store × FS :=
  Set (SetEnv.quiet 1000 2 (str "b")) store64 fs0 (str "a") 5000000000000 value40

/-- The state after a further `Set("b", 5000000000000, "x")` during which
`os.Create` fails. -/
def failedRoll : Option Err × Store × FS :=
  Set ⟨false, 2, str "b", true, none, 1000⟩ filled64.2.1 filled64.2.2 (str "b")
    5000000000000 (str "x")

/-- A key of 5000 bytes. -/
def bigKey : Bytes :=
  List.replicate 5000 97

/-- The store and directory after the restart that follows `deletedK`, at
clock 1000. -/
def restartedK : CreateResult :=
  CreateLogStore (CreateEnv.quiet 1000 3 (str "c")) deletedK.2.2 none

/-- The index that the restart after `deletedK` builds. -/
def resurrected : Store :=
  ⟨SetKey (CreateMap Item) (str "k") ⟨str "1-a", 5000, 11, 1⟩, ⟨str "1-a", false⟩,
    MAX_LOG_FILE_BYTES⟩

/-- The state after a further `Set("b", 5000000000000, "x")` that follows
`filled64` without failure. -/
def rolled64 : Option Err × Store × FS :=
  Set (SetEnv.quiet 1000 2 (str "b")) filled64.2.1 filled64.2.2 (str "b") 5000000000000
    (str "x")

/-! ## The engine when a `Set` may fail -/

/-- The states of the engine with threshold `M` when calls may fail: a store
created on an empty directory, then driven by `Set` calls that succeed or that
fail in `Stat` or in the creation of the next segment (only a `Write` that
stops part-way is left out), by `Get` calls, and by restarts on the same
directory with the same threshold.  The names of new segments are arbitrary. -/
inductive Driven (M : Int) : Store → FS → Prop
  | create (env : CreateEnv) (opts : Option Int) (s : Store) (fs : FS) :
      opts.getD MAX_LOG_FILE_BYTES = M →
      CreateLogStore env [] opts = CreateResult.ok s fs → Driven M s fs
  | set (env : SetEnv) (s : Store) (fs : FS) (k : Bytes) (e : Int) (v : Bytes)
      (r : Option Err) (s' : Store) (fs' : FS) :
      Driven M s fs → env.written = none →
      Set env s fs k e v = (r, s', fs') → Driven M s' fs'
  | get (env : GetEnv) (s : Store) (fs : FS) (k : Bytes) (r : GetResult) (s' : Store) :
      Driven M s fs → Get env s fs k = (r, s') → Driven M s' fs
  | restart (env : CreateEnv) (s : Store) (fs : FS) (s' : Store) (fs' : FS) :
      Driven M s fs →
      CreateLogStore env fs (some M) = CreateResult.ok s' fs' → Driven M s' fs'

/-- A value of one hundred bytes. -/
def value100 : Bytes :=
  List.replicate 100 120

/-- The state after a further `Set("b", 5000000000000, value100)` that follows
`filled64`: the `Set` rolls over, and its `Write` fails after 70 bytes. -/
def partialRoll : Option Err × Store × FS :=
  Set ⟨false, 2, str "b", false, some 70, 1000⟩ filled64.2.1 filled64.2.2 (str "b")
    5000000000000 value100

/-- The first 70 bytes of the record of `Set("b", 5000000000000, value100)`. -/
def partialBytes : Bytes :=
  (recordBytes (str "b") 5000000000000 value100).take 70

/-! ## Lemmas on Go maps -/

namespace GoMap

variable {V : Type}

theorem get_delete (m : GoMap V) (k k' : Bytes) :
    (delete m k).get k' = if k' = k then none else m.get k' := by
  induction m with
  | nil => simp [delete, get]
  | cons p t ih =>
    obtain ⟨a, v⟩ := p
    by_cases ha : a = k
    · subst ha
      have : delete ((a, v) :: t) a = delete t a := by simp [delete]
      rw [this, ih]
      by_cases hk : k' = a
      · simp [hk]
      · have : ¬ a = k' := fun h => hk h.symm
        simp [hk, get, this]
    · have : delete ((a, v) :: t) k = (a, v) :: delete t k := by simp [delete, ha]
      rw [this]
      by_cases hk : k' = k
      · subst hk
        simp [get, ha] at ih ⊢
        exact ih
      · simp only [get, ih, hk, if_false]

theorem get_set (m : GoMap V) (k k' : Bytes) (v : V) :
    (set m k v).get k' = if k' = k then some v else m.get k' := by
  by_cases hk : k' = k
  · subst hk
    simp [set, get]
  · have : ¬ k = k' := fun h => hk h.symm
    simp [set, get, this, get_delete, hk]

theorem get_eq_none_of_not_mem (m : GoMap V) (k : Bytes) (h : k ∉ m.keys) :
    m.get k = none := by
  induction m with
  | nil => rfl
  | cons p t ih =>
    obtain ⟨a, v⟩ := p
    simp only [keys, List.map_cons, List.mem_cons, not_or] at h
    have ha : ¬ a = k := fun e => h.1 e.symm
    simp only [get, ha, if_false]
    exact ih h.2

theorem mem_keys_delete {m : GoMap V} {k k' : Bytes} (h : k' ∈ (delete m k).keys) :
    k' ∈ m.keys := by
  simp only [keys, delete, List.mem_map, List.mem_filter] at h ⊢
  obtain ⟨p, ⟨hp, _⟩, rfl⟩ := h
  exact ⟨p, hp, rfl⟩

theorem mem_keys_set {m : GoMap V} {k k' : Bytes} {v : V} (h : k' ∈ (set m k v).keys) :
    k' = k ∨ k' ∈ m.keys := by
  simp only [set, keys, List.map_cons, List.mem_cons] at h
  rcases h with h | h
  · exact Or.inl h
  · exact Or.inr (mem_keys_delete h)

end GoMap

/-! ## Lemmas on the sharded index -/

section Index

variable {V : Type}

theorem shardIndex_lt (k : Bytes) : shardIndex k < SHARDS :=
  Nat.mod_lt _ (by decide)

theorem Owned_CreateMap : Owned (CreateMap V) := by
  refine ⟨by simp [CreateMap], ?_⟩
  intro i sh h k hk
  simp only [CreateMap, List.getElem?_replicate] at h
  split at h
  · cases h
    simp [GoMap.keys] at hk
  · cases h

theorem findSome?_of_unique {α β : Type} (f : α → Option β) (l : List α) (i : Nat) (d : α)
    (h : ∀ j a, l[j]? = some a → j ≠ i → f a = none) (hi : i < l.length) :
    l.findSome? f = f (l.getD i d) := by
  induction l generalizing i with
  | nil => simp at hi
  | cons a t ih =>
    cases i with
    | zero =>
      simp only [List.findSome?, List.getD_cons_zero]
      cases hfa : f a with
      | some b => rfl
      | none =>
        simp only
        clear ih
        induction t with
        | nil => rfl
        | cons b t iht =>
          have hb : f b = none := h 1 b (by simp) (by simp)
          simp only [List.findSome?, hb]
          apply iht
          · intro j c hj hne
            cases j with
            | zero => exact absurd rfl hne
            | succ j =>
              exact h (j + 2) c (by simpa using hj) (by simp)
          · simp
    | succ i =>
      have ha : f a = none := h 0 a (by simp) (by simp)
      simp only [List.findSome?, ha, List.getD_cons_succ]
      apply ih
      · intro j c hj hne
        exact h (j + 1) c (by simpa using hj) (by simpa using hne)
      · simpa using hi

theorem union_eq_GetKey (m : mp V) (h : Owned m) (k : Bytes) : union m k = GetKey m k := by
  unfold union GetKey getShard
  apply findSome?_of_unique
  · intro j sh hj hne
    apply GoMap.get_eq_none_of_not_mem
    intro hk
    exact hne (h.2 j sh hj k hk).symm
  · rw [h.1]
    exact shardIndex_lt k

theorem GetKey_SetKey (m : mp V) (hlen : m.length = SHARDS) (k k' : Bytes) (v : V) :
    GetKey (SetKey m k v) k' = if k' = k then some v else GetKey m k' := by
  have hk : shardIndex k < m.length := hlen ▸ shardIndex_lt k
  unfold GetKey getShard SetKey
  by_cases hi : shardIndex k' = shardIndex k
  · rw [hi]
    simp only [List.getD_eq_getElem?_getD, List.getElem?_set_self hk, Option.getD_some]
    rw [GoMap.get_set]
    simp only [getShard, List.getD_eq_getElem?_getD]
  · have hne : k' ≠ k := fun e => hi (by rw [e])
    simp only [List.getD_eq_getElem?_getD, List.getElem?_set_ne (Ne.symm hi), hne, if_false]

theorem GetKey_DeleteKey (m : mp V) (hlen : m.length = SHARDS) (k k' : Bytes) :
    GetKey (DeleteKey m k) k' = if k' = k then none else GetKey m k' := by
  have hk : shardIndex k < m.length := hlen ▸ shardIndex_lt k
  unfold GetKey getShard DeleteKey
  by_cases hi : shardIndex k' = shardIndex k
  · rw [hi]
    simp only [List.getD_eq_getElem?_getD, List.getElem?_set_self hk, Option.getD_some]
    rw [GoMap.get_delete]
    simp only [getShard, List.getD_eq_getElem?_getD]
  · have hne : k' ≠ k := fun e => hi (by rw [e])
    simp only [List.getD_eq_getElem?_getD, List.getElem?_set_ne (Ne.symm hi), hne, if_false]

theorem Owned_set_shard (m : mp V) (h : Owned m) (k : Bytes) (items : GoMap V)
    (hitems : ∀ k' ∈ GoMap.keys items, k' = k ∨ k' ∈ (getShard m k).items.keys) :
    Owned (m.set (shardIndex k) ⟨items⟩) := by
  refine ⟨by simpa using h.1, ?_⟩
  intro i sh hsh k' hk'
  by_cases hi : shardIndex k = i
  · subst hi
    have hlt : shardIndex k < m.length := h.1 ▸ shardIndex_lt k
    rw [List.getElem?_set_self hlt] at hsh
    cases hsh
    rcases hitems k' hk' with e | hmem
    · rw [e]
    · apply h.2 (shardIndex k) (getShard m k) _ k' hmem
      simp only [getShard, List.getD_eq_getElem?_getD]
      rw [List.getElem?_eq_getElem hlt]
      rfl
  · rw [List.getElem?_set_ne hi] at hsh
    exact h.2 i sh hsh k' hk'

theorem Owned_SetKey (m : mp V) (h : Owned m) (k : Bytes) (v : V) : Owned (SetKey m k v) :=
  Owned_set_shard m h k _ (fun _ hk => GoMap.mem_keys_set hk)

theorem Owned_DeleteKey (m : mp V) (h : Owned m) (k : Bytes) : Owned (DeleteKey m k) :=
  Owned_set_shard m h k _ (fun _ hk => Or.inr (GoMap.mem_keys_delete hk))

theorem Owned_MSet (m : mp V) (h : Owned m) (data : GoMap V) : Owned (MSet m data) := by
  induction data with
  | nil => exact h
  | cons p t ih => exact Owned_SetKey _ ih _ _

theorem GetKey_MSet (m : mp V) (h : Owned m) (data : GoMap V) (k : Bytes) :
    GetKey (MSet m data) k = (data.get k).orElse (fun _ => GetKey m k) := by
  induction data with
  | nil => simp [MSet, GoMap.get]
  | cons p t ih =>
    obtain ⟨a, v⟩ := p
    have hO : Owned (MSet m t) := Owned_MSet m h t
    have : MSet m ((a, v) :: t) = SetKey (MSet m t) a v := rfl
    rw [this, GetKey_SetKey _ hO.1, ih]
    by_cases hk : k = a
    · subst hk
      simp [GoMap.get]
    · have : ¬ a = k := fun e => hk e.symm
      simp [GoMap.get, hk, this]

theorem Owned_of_Built (m : mp V) (h : Built m) : Owned m := by
  induction h with
  | create => exact Owned_CreateMap
  | setKey m k v _ ih => exact Owned_SetKey m ih k v
  | deleteKey m k _ ih => exact Owned_DeleteKey m ih k
  | mset m data _ ih => exact Owned_MSet m ih data

theorem hashStep_lt (h : Nat) (b : UInt8) : hashStep h b < 2 ^ 32 := by
  unfold hashStep
  apply Nat.xor_lt_two_pow
  · exact Nat.mod_lt _ (by decide)
  · have : b.toNat < 2 ^ 8 := b.val.isLt
    omega

theorem hash_lt (k : Bytes) : hash k < 2 ^ 32 := by
  unfold hash
  generalize hs : (2166136261 : Nat) = s
  have h0 : s < 2 ^ 32 := by subst hs; decide
  clear hs
  induction k generalizing s with
  | nil => simpa using h0
  | cons b t ih => exact ih _ (hashStep_lt s b)

end Index

/-! ## The sharded index: claims C9 and C10 -/

/-- C9: read through the union of its 128 shard maps, an index built by the
API is one key-to-value map: `CreateMap` is the empty map, `GetKey` is lookup,
`SetKey` inserts or overwrites its key, `DeleteKey` erases its key and changes
nothing when the key is absent, `MSet` inserts or overwrites every pair of its
argument, and each operation leaves the entries of all other keys as they
were. -/
theorem sharded_index_is_one_map {V : Type} (m : mp V) (h : Built m) :
    (∀ k, union (CreateMap V) k = none) ∧
    (∀ k, GetKey m k = union m k) ∧
    (∀ k v k', union (SetKey m k v) k' = if k' = k then some v else union m k') ∧
    (∀ k k', union (DeleteKey m k) k' = if k' = k then none else union m k') ∧
    (∀ k, union m k = none → ∀ k', union (DeleteKey m k) k' = union m k') ∧
    (∀ data k', union (MSet m data) k' = (GoMap.get data k').orElse (fun _ => union m k')) := by
  have hO : Owned m := Owned_of_Built m h
  have hdel : ∀ k k', union (DeleteKey m k) k' = if k' = k then none else union m k' := by
    intro k k'
    rw [union_eq_GetKey _ (Owned_DeleteKey m hO k), GetKey_DeleteKey m hO.1,
      union_eq_GetKey m hO]
  refine ⟨?_, ?_, ?_, hdel, ?_, ?_⟩
  · intro k
    rw [union_eq_GetKey _ Owned_CreateMap]
    simp [GetKey, getShard, CreateMap, List.getD_eq_getElem?_getD, List.getElem?_replicate,
      shardIndex_lt k, GoMap.get]
  · intro k
    exact (union_eq_GetKey m hO k).symm
  · intro k v k'
    rw [union_eq_GetKey _ (Owned_SetKey m hO k v), GetKey_SetKey m hO.1, union_eq_GetKey m hO]
  · intro k hk k'
    rw [hdel]
    by_cases e : k' = k
    · simp [e, hk]
    · simp [e]
  · intro data k'
    rw [union_eq_GetKey _ (Owned_MSet m hO data), GetKey_MSet m hO, union_eq_GetKey m hO]

/-- Witness for C9 on the index holding the single key `k`. -/
theorem sharded_index_is_one_map_witness :
    Built (SetKey (CreateMap Nat) [107] 1) ∧
      union (SetKey (SetKey (CreateMap Nat) [107] 1) [107, 50] 2) [107] = some 1 :=
  ⟨Built.setKey _ _ _ Built.create, by
    have h := (sharded_index_is_one_map (SetKey (CreateMap Nat) [107] 1)
      (Built.setKey _ _ _ Built.create)).2.2.1 [107, 50] 2 [107]
    have h2 := (sharded_index_is_one_map (CreateMap Nat) Built.create).2.2.1 [107] 1 [107]
    rw [h, h2]
    simp⟩

/-- C10: in every index built from `CreateMap` by `SetKey`, `DeleteKey` and
`MSet`, a key stored in shard number `i` has `hash key mod 128 = i`, where
`hash` is the 32-bit FNV fold (its value is below `2^32`); the selected shard
number is below 128 and no key is stored in two shards. -/
theorem shard_ownership {V : Type} (m : mp V) (h : Built m) :
    (∀ (i : Nat) (sh : MapShard V), m[i]? = some sh → ∀ k ∈ sh.items.keys, hash k % 128 = i) ∧
    (∀ k : Bytes, hash k < 2 ^ 32 ∧ shardIndex k < 128) ∧
    (∀ (i j : Nat) (si sj : MapShard V) (k : Bytes), m[i]? = some si → m[j]? = some sj →
      k ∈ si.items.keys → k ∈ sj.items.keys → i = j) := by
  have hO : Owned m := Owned_of_Built m h
  refine ⟨fun i sh hs k hk => hO.2 i sh hs k hk, fun k => ⟨hash_lt k, shardIndex_lt k⟩, ?_⟩
  intro i j si sj k hi hj hki hkj
  rw [← hO.2 i si hi k hki, ← hO.2 j sj hj k hkj]

/-- Witness for C10 on the index holding the single key `k`. -/
theorem shard_ownership_witness :
    Built (SetKey (CreateMap Nat) [107] 1) ∧ shardIndex [107] < 128 :=
  ⟨Built.setKey _ _ _ Built.create,
    ((shard_ownership (SetKey (CreateMap Nat) [107] 1)
      (Built.setKey _ _ _ Built.create)).2.1 [107]).2⟩

/-! ## Lemmas on the directory -/

namespace FS

theorem read_append (fs : FS) (name name' : FileName) (data : Bytes) :
    read (append fs name data) name' =
      if name' = name then (read fs name).map (· ++ data) else read fs name' := by
  induction fs with
  | nil => simp [append, read]
  | cons p t ih =>
    obtain ⟨n, c⟩ := p
    have hcons : append ((n, c) :: t) name data =
        (if n = name then (n, c ++ data) else (n, c)) :: append t name data := by
      simp [append]
    rw [hcons]
    by_cases hn : n = name
    · subst hn
      rw [if_pos rfl]
      by_cases hk : name' = n
      · subst hk
        simp [read]
      · have : ¬ n = name' := fun e => hk e.symm
        simp [read, this, ih, hk]
    · rw [if_neg hn]
      by_cases hk : name' = name
      · subst hk
        simp [read, hn, ih]
      · simp [read, ih, hk]

theorem read_filter_ne (fs : FS) (name name' : FileName) (hk : name' ≠ name) :
    read (fs.filter (fun p => decide (p.1 ≠ name))) name' = read fs name' := by
  induction fs with
  | nil => rfl
  | cons p t ih =>
    obtain ⟨n, c⟩ := p
    by_cases hn : n = name
    · subst hn
      have hne : ¬ n = name' := fun e => hk e.symm
      have : List.filter (fun p => decide (p.1 ≠ n)) ((n, c) :: t) =
          List.filter (fun p => decide (p.1 ≠ n)) t := by
        simp [List.filter_cons]
      rw [this, ih]
      simp [read, hne]
    · have : List.filter (fun p => decide (p.1 ≠ name)) ((n, c) :: t) =
          (n, c) :: List.filter (fun p => decide (p.1 ≠ name)) t := by
        simp [List.filter_cons, hn]
      rw [this]
      simp only [read, ih]

theorem read_create (fs : FS) (name name' : FileName) :
    read (create fs name) name' = if name' = name then some [] else read fs name' := by
  by_cases hk : name' = name
  · subst hk
    simp [create, read]
  · have hne : ¬ name = name' := fun e => hk e.symm
    simp only [create, read, hne, if_false, hk]
    exact read_filter_ne fs name name' hk

end FS

/-! ## The write path -/

/-- The index entry that `Set` builds for a record written at offset `pos` of
the file `name`. -/
theorem Set_ok {env : SetEnv} {s : Store} {fs : FS} {k : Bytes} {e : Int} {v : Bytes}
    {s' : Store} {fs' : FS} (h : Set env s fs k e v = (none, s', fs')) :
    ∃ (size : Nat) (f : File) (fs1 : FS) (pos : Nat),
      statSize env.statFails s.logFile fs = some size ∧
      ((rollsOver size k e v s.maxLogFileBytes = false ∧ f = s.logFile ∧ fs1 = fs ∧ pos = size) ∨
       (rollsOver size k e v s.maxLogFileBytes = true ∧ env.createFails = false ∧
          f = ⟨logFileId env.nameTime env.suffix, false⟩ ∧
          fs1 = fs.create (logFileId env.nameTime env.suffix) ∧ pos = 0)) ∧
      f.closed = false ∧
      fs' = fs1.append f.name (recordBytes k e v) ∧
      s'.logFile = f ∧ s'.maxLogFileBytes = s.maxLogFileBytes ∧
      s'.mp = if e ≤ env.now then DeleteKey s.mp k
        else SetKey s.mp k
          ⟨f.name, e, ((pos + (recordLine k e v).length : Nat) : Int), (v.length : Int)⟩ := by
  unfold Set at h
  cases hst : statSize env.statFails s.logFile fs with
  | none => simp [hst] at h
  | some size =>
    simp only [hst] at h
    cases hr : rollsOver size k e v s.maxLogFileBytes with
    | false =>
      simp only [hr, Bool.false_eq_true, if_false] at h
      have hclosed : s.logFile.closed = false := by
        unfold statSize at hst
        cases hc : s.logFile.closed with
        | false => rfl
        | true => simp [hc] at hst
      unfold writeFile at h
      simp only [hclosed, Bool.false_eq_true, if_false] at h
      cases hw : env.written with
      | some n => simp [hw] at h
      | none =>
        simp only [hw] at h
        refine ⟨size, s.logFile, fs, size, rfl, Or.inl ⟨hr, rfl, rfl, rfl⟩, hclosed, ?_⟩
        by_cases hexp : e ≤ env.now
        · simp only [hexp, if_true, Prod.mk.injEq, true_and] at h
          obtain ⟨h1, h2⟩ := h
          subst h1 h2
          simp [hexp]
        · simp only [hexp, if_false, Prod.mk.injEq, true_and] at h
          obtain ⟨h1, h2⟩ := h
          subst h1 h2
          simp [hexp]
    | true =>
      simp only [hr, if_true] at h
      unfold nextLogFile createLogFile at h
      cases hcf : env.createFails with
      | true => simp [hcf] at h
      | false =>
        simp only [hcf, Bool.false_eq_true, if_false] at h
        unfold writeFile at h
        simp only [Bool.false_eq_true, if_false] at h
        cases hw : env.written with
        | some n => simp [hw] at h
        | none =>
          simp only [hw] at h
          refine ⟨size, ⟨logFileId env.nameTime env.suffix, false⟩,
            fs.create (logFileId env.nameTime env.suffix), 0, rfl,
            Or.inr ⟨hr, rfl, rfl, rfl, rfl⟩, rfl, ?_⟩
          by_cases hexp : e ≤ env.now
          · simp only [hexp, if_true, Prod.mk.injEq, true_and] at h
            obtain ⟨h1, h2⟩ := h
            subst h1 h2
            simp [hexp]
          · simp only [hexp, if_false, Prod.mk.injEq, true_and] at h
            obtain ⟨h1, h2⟩ := h
            subst h1 h2
            simp [hexp]

theorem Set_err_mp {env : SetEnv} {s : Store} {fs : FS} {k : Bytes} {e : Int} {v : Bytes}
    {err : Err} {s' : Store} {fs' : FS} (h : Set env s fs k e v = (some err, s', fs')) :
    s'.mp = s.mp := by
  unfold Set at h
  cases hst : statSize env.statFails s.logFile fs with
  | none =>
    simp only [hst, Prod.mk.injEq] at h
    rw [← h.2.1]
  | some size =>
    simp only [hst] at h
    cases hr : rollsOver size k e v s.maxLogFileBytes with
    | false =>
      simp only [hr, Bool.false_eq_true, if_false] at h
      cases hw : writeFile env.written s.logFile fs (recordBytes k e v) with
      | mk o fs2 =>
        cases o with
        | some e2 =>
          simp only [hw, Prod.mk.injEq] at h
          rw [← h.2.1]
        | none =>
          simp only [hw] at h
          split at h <;> simp at h
    | true =>
      simp only [hr, if_true] at h
      unfold nextLogFile createLogFile at h
      cases hcf : env.createFails with
      | true =>
        simp only [hcf, if_true, Prod.mk.injEq] at h
        rw [← h.2.1]
      | false =>
        simp only [hcf, Bool.false_eq_true, if_false] at h
        cases hw : writeFile env.written ⟨logFileId env.nameTime env.suffix, false⟩
            (fs.create (logFileId env.nameTime env.suffix)) (recordBytes k e v) with
        | mk o fs2 =>
          cases o with
          | some e2 =>
            simp only [hw, Prod.mk.injEq] at h
            rw [← h.2.1]
          | none =>
            simp only [hw] at h
            split at h <;> simp at h

theorem GetKey_DeleteKey_self {V : Type} (m : mp V) (k : Bytes) :
    GetKey (DeleteKey m k) k = none := by
  unfold GetKey DeleteKey getShard
  by_cases hlt : shardIndex k < m.length
  · simp only [List.getD_eq_getElem?_getD, List.getElem?_set_self hlt, Option.getD_some]
    rw [GoMap.get_delete]
    simp
  · have hge : m.length ≤ shardIndex k := Nat.le_of_not_lt hlt
    have h1 : ∀ x : MapShard V, (m.set (shardIndex k) x)[shardIndex k]? = none := by
      intro x
      apply List.getElem?_eq_none
      simpa using hge
    simp only [List.getD_eq_getElem?_getD, h1, Option.getD_none, GoMap.get]

/-! ## The write path: claims C2, C6 and C8 -/

/-- C2: a successful `Set` of a value whose expiry is not after the clock
(`e ≤ now`, which covers `e = now - 1` and the delete form `Set(k, 0, [])` at a
clock `now ≥ 0`) leaves the index without an entry for `k`, whatever the index
held before, and the `Get(k)` that follows returns `(false, nil)`, writes
nothing to the sink and leaves the store as it is. -/
theorem expired_set_removes_key (env : SetEnv) (genv : GetEnv) (s : Store) (fs : FS)
    (k : Bytes) (e : Int) (v : Bytes) (s' : Store) (fs' : FS)
    (h : Set env s fs k e v = (none, s', fs')) (hexp : e ≤ env.now) :
    GetKey s'.mp k = none ∧ Get genv s' fs' k = (⟨false, none, []⟩, s') := by
  obtain ⟨size, f, fs1, pos, _, _, _, _, _, _, hmp⟩ := Set_ok h
  rw [if_pos hexp] at hmp
  have hnone : GetKey s'.mp k = none := by
    rw [hmp]
    exact GetKey_DeleteKey_self s.mp k
  refine ⟨hnone, ?_⟩
  unfold Get
  rw [hnone]

/-- Witness for C2: the key `k` is live in the store, then deleted with
`Set(k, 0, [])` at clock 1000. -/
theorem expired_set_removes_key_witness :
    GetKey liveK.2.1.mp (str "k") = some ⟨str "1-a", 5000, 11, 1⟩ ∧
      GetKey deletedK.2.1.mp (str "k") = none :=
  ⟨by decide,
    (expired_set_removes_key (SetEnv.quiet 1000 2 (str "b")) ⟨1000, false⟩ liveK.2.1 liveK.2.2
      (str "k") 0 [] deletedK.2.1 deletedK.2.2 (by decide) (by decide)).1⟩

/-- C6, as the claim states it, fails: on a fresh store `Set("k", 5, "v")`
appends `5,1,1,k,v,` with a separator between key and value, where the grammar
of section 6.3 has `5,1,1,kv,`. -/
theorem set_record_differs_from_grammar :
    (Set (SetEnv.quiet 1000 2 (str "b")) store0 fs0 (str "k") 5 (str "v")).2.2 =
        [(str "1-a", str "5,1,1,k,v,")] ∧
      specRecord (str "k") 5 (str "v") = str "5,1,1,kv," ∧
      (Set (SetEnv.quiet 1000 2 (str "b")) store0 fs0 (str "k") 5 (str "v")).2.2 ≠
        fs0.append (str "1-a") (specRecord (str "k") 5 (str "v")) := by
  decide

/-- C6, amended: the bytes that a successful `Set` appends to the active
segment are the decimal expiry, `,`, the decimal key length, `,`, the decimal
value length, `,`, the key bytes, `,`, the value bytes and a terminating `,`.
They follow the previous content of the active segment, or start the new
segment after a rollover. -/
theorem set_appends_record (env : SetEnv) (s : Store) (fs : FS) (k : Bytes) (e : Int)
    (v : Bytes) (s' : Store) (fs' : FS) (h : Set env s fs k e v = (none, s', fs')) :
    ∃ c : Bytes,
      ((s'.logFile = s.logFile ∧ fs.read s.logFile.name = some c) ∨
        (s'.logFile = ⟨logFileId env.nameTime env.suffix, false⟩ ∧ c = [])) ∧
      fs'.read s'.logFile.name = some (c ++ (formatInt e ++ [COMMA] ++ formatInt k.length ++
        [COMMA] ++ formatInt v.length ++ [COMMA] ++ k ++ [COMMA] ++ v ++ [COMMA])) := by
  obtain ⟨size, f, fs1, pos, hst, hcase, _, hfs, hlf, _, _⟩ := Set_ok h
  have hrec : formatInt e ++ [COMMA] ++ formatInt k.length ++ [COMMA] ++ formatInt v.length ++
      [COMMA] ++ k ++ [COMMA] ++ v ++ [COMMA] = recordBytes k e v := by
    simp [recordBytes, recordLine]
  rw [hrec, hlf, hfs, FS.read_append, if_pos rfl]
  rcases hcase with ⟨_, hf, hfs1, _⟩ | ⟨_, _, hf, hfs1, _⟩
  · rw [hf, hfs1]
    unfold statSize at hst
    cases hread : fs.read s.logFile.name with
    | none => simp [hread] at hst
    | some c => exact ⟨c, Or.inl ⟨rfl, rfl⟩, by simp⟩
  · rw [hf, hfs1]
    exact ⟨[], Or.inr ⟨rfl, rfl⟩, by simp [FS.read_create]⟩

/-- Witness for C6, amended: `Set("k", 5, "v")` on a fresh store. -/
theorem set_appends_record_witness :
    Set (SetEnv.quiet 1000 2 (str "b")) store0 fs0 (str "k") 5 (str "v") =
        (none, ⟨DeleteKey (CreateMap Item) (str "k"), ⟨str "1-a", false⟩, 1680⟩,
          [(str "1-a", str "5,1,1,k,v,")]) ∧
      ∃ c : Bytes,
        (((⟨str "1-a", false⟩ : File) = store0.logFile ∧
            fs0.read store0.logFile.name = some c) ∨
          ((⟨str "1-a", false⟩ : File) = ⟨logFileId 2 (str "b"), false⟩ ∧ c = [])) ∧
        FS.read [(str "1-a", str "5,1,1,k,v,")] (str "1-a") =
          some (c ++ (formatInt 5 ++ [COMMA] ++ formatInt (str "k").length ++
            [COMMA] ++ formatInt (str "v").length ++ [COMMA] ++ str "k" ++ [COMMA] ++
            str "v" ++ [COMMA])) :=
  ⟨by decide,
    set_appends_record (SetEnv.quiet 1000 2 (str "b")) store0 fs0 (str "k") 5 (str "v")
      ⟨DeleteKey (CreateMap Item) (str "k"), ⟨str "1-a", false⟩, 1680⟩
      [(str "1-a", str "5,1,1,k,v,")] (by decide)⟩

/-- C8: a `Set` that returns an error, whether `Stat`, the creation of the
next segment or the write failed, leaves the index exactly as it was. -/
theorem failed_set_keeps_index (env : SetEnv) (s : Store) (fs : FS) (k : Bytes) (e : Int)
    (v : Bytes) (err : Err) (s' : Store) (fs' : FS)
    (h : Set env s fs k e v = (some err, s', fs')) :
    s'.mp = s.mp ∧ ∀ k', GetKey s'.mp k' = GetKey s.mp k' := by
  have hmp := Set_err_mp h
  exact ⟨hmp, fun k' => by rw [hmp]⟩

/-- Witness for C8: the write fails after three bytes. -/
theorem failed_set_keeps_index_witness :
    Set ⟨false, 2, str "b", false, some 3, 1000⟩ store0 fs0 (str "k") 5000 (str "v") =
        (some Err.write, store0, [(str "1-a", str "500")]) ∧
      store0.mp = store0.mp :=
  ⟨by decide,
    (failed_set_keeps_index ⟨false, 2, str "b", false, some 3, 1000⟩ store0 fs0 (str "k") 5000
      (str "v") Err.write store0 [(str "1-a", str "500")] (by decide)).1⟩

/-! ## Lemmas on the reader: bytes handed out are bytes of the file -/

namespace Reader

theorem fill_rest (b : Reader) : b.fill.rest = b.rest := by
  unfold fill
  simp only
  split <;> rfl

theorem fill_wf (b : Reader) (h : WF b) : WF b.fill := by
  unfold fill WF at *
  simp only
  split
  · exact h
  · simp only
    omega

theorem advance_wf (b : Reader) (n : Nat) (h : WF b) : WF (b.advance n) := by
  unfold advance WF at *
  simp only [List.length_drop]
  omega

theorem ReadSlice_len (fuel : Nat) (b : Reader) (delim : UInt8) (got : Bytes)
    (err : Option RErr) (b' : Reader) (h : ReadSlice fuel b delim = (got, err, b'))
    (hwf : WF b) : WF b' ∧ got.length + b'.rest.length = b.rest.length := by
  induction fuel generalizing b with
  | zero =>
    simp only [ReadSlice, Prod.mk.injEq] at h
    obtain ⟨h1, _, h3⟩ := h
    subst h1 h3
    exact ⟨hwf, by simp⟩
  | succ fuel ih =>
    unfold ReadSlice at h
    simp only at h
    split at h
    · rename_i hmem
      simp only [Prod.mk.injEq] at h
      obtain ⟨h1, _, h3⟩ := h
      subst h1 h3
      refine ⟨advance_wf b _ hwf, ?_⟩
      have hi : List.indexOf delim (List.take b.nbuf b.rest) < (List.take b.nbuf b.rest).length :=
        List.indexOf_lt_length.mpr hmem
      simp only [List.length_take] at hi
      simp only [advance, List.length_take, List.length_drop]
      omega
    · split at h
      · simp only [Prod.mk.injEq] at h
        obtain ⟨h1, _, h3⟩ := h
        subst h1 h3
        refine ⟨?_, ?_⟩
        · have := advance_wf b b.nbuf hwf
          simp [WF, advance]
        · simp only [advance, List.length_take, List.length_drop]
          unfold WF at hwf
          omega
      · split at h
        · simp only [Prod.mk.injEq] at h
          obtain ⟨h1, _, h3⟩ := h
          subst h1 h3
          refine ⟨advance_wf b _ hwf, ?_⟩
          simp only [advance, List.length_take, List.length_drop]
          unfold WF at hwf
          omega
        · have := ih b.fill h (fill_wf b hwf)
          rw [fill_rest] at this
          exact this

theorem readBytesLoop_len (fuel : Nat) (b : Reader) (delim : UInt8) (acc got : Bytes)
    (err : Option RErr) (b' : Reader) (h : readBytesLoop fuel b delim acc = (got, err, b'))
    (hwf : WF b) : WF b' ∧ got.length + b'.rest.length = acc.length + b.rest.length := by
  induction fuel generalizing b acc with
  | zero =>
    simp only [readBytesLoop, Prod.mk.injEq] at h
    obtain ⟨h1, _, h3⟩ := h
    subst h1 h3
    exact ⟨hwf, rfl⟩
  | succ fuel ih =>
    unfold readBytesLoop at h
    cases hrs : b.ReadSlice 3 delim with
    | mk frag rest =>
      obtain ⟨e, b1⟩ := rest
      have hlen := ReadSlice_len 3 b delim frag e b1 hrs hwf
      simp only [hrs] at h
      cases e with
      | none =>
        simp only [Prod.mk.injEq] at h
        obtain ⟨h1, _, h3⟩ := h
        subst h1 h3
        refine ⟨hlen.1, ?_⟩
        simp only [List.length_append]
        omega
      | some e =>
        cases e with
        | bufferFull =>
          simp only at h
          have := ih b1 (acc ++ frag) h hlen.1
          refine ⟨this.1, ?_⟩
          simp only [List.length_append] at this
          omega
        | eof =>
          simp only [Prod.mk.injEq] at h
          obtain ⟨h1, _, h3⟩ := h
          subst h1 h3
          refine ⟨hlen.1, ?_⟩
          simp only [List.length_append]
          omega
        | negativeCount =>
          simp only [Prod.mk.injEq] at h
          obtain ⟨h1, _, h3⟩ := h
          subst h1 h3
          refine ⟨hlen.1, ?_⟩
          simp only [List.length_append]
          omega
        | noProgress =>
          simp only [Prod.mk.injEq] at h
          obtain ⟨h1, _, h3⟩ := h
          subst h1 h3
          refine ⟨hlen.1, ?_⟩
          simp only [List.length_append]
          omega

theorem ReadBytes_len (b : Reader) (delim : UInt8) (got : Bytes) (err : Option RErr)
    (b' : Reader) (h : b.ReadBytes delim = (got, err, b')) (hwf : WF b) :
    WF b' ∧ got.length + b'.rest.length = b.rest.length := by
  have := readBytesLoop_len _ b delim [] got err b' h hwf
  simpa using this

theorem Read_len (b : Reader) (n : Nat) (got : Bytes) (err : Option RErr) (b' : Reader)
    (h : b.Read n = (got, err, b')) (hwf : WF b) :
    WF b' ∧ got.length + b'.rest.length = b.rest.length := by
  unfold Read at h
  unfold WF at hwf
  split at h
  · split at h
    · simp only [Prod.mk.injEq] at h
      obtain ⟨h1, _, h3⟩ := h
      subst h1 h3
      exact ⟨hwf, by simp⟩
    · simp only [Prod.mk.injEq] at h
      obtain ⟨h1, _, h3⟩ := h
      subst h1 h3
      exact ⟨hwf, by simp⟩
  · split at h
    · rename_i hn0
      split at h
      · simp only [Prod.mk.injEq] at h
        obtain ⟨h1, _, h3⟩ := h
        subst h1 h3
        exact ⟨hwf, by simp⟩
      · split at h
        · simp only at h
          split at h
          · simp only [Prod.mk.injEq] at h
            obtain ⟨h1, _, h3⟩ := h
            subst h1 h3
            exact ⟨hwf, by simp⟩
          · simp only [Prod.mk.injEq] at h
            obtain ⟨h1, _, h3⟩ := h
            subst h1 h3
            refine ⟨?_, ?_⟩
            · simp only [WF, hn0]
              omega
            · simp only [List.length_take, List.length_drop]
              omega
        · simp only at h
          split at h
          · simp only [Prod.mk.injEq] at h
            obtain ⟨h1, _, h3⟩ := h
            subst h1 h3
            exact ⟨hwf, by simp⟩
          · simp only [Prod.mk.injEq] at h
            obtain ⟨h1, _, h3⟩ := h
            subst h1 h3
            refine ⟨?_, ?_⟩
            · simp only [WF, List.length_drop]
              omega
            · simp only [List.length_take, List.length_drop]
              omega
    · simp only [Prod.mk.injEq] at h
      obtain ⟨h1, _, h3⟩ := h
      subst h1 h3
      refine ⟨advance_wf b _ hwf, ?_⟩
      simp only [advance, List.length_take, List.length_drop]
      omega

theorem discardLoop_len (fuel : Nat) (b : Reader) (remain n cnt : Nat) (b' : Reader)
    (h : discardLoop fuel b remain n = (cnt, none, b')) (hwf : WF b) (hrn : remain ≤ n) :
    WF b' ∧ cnt = n ∧ n + b'.rest.length = (n - remain) + b.rest.length := by
  induction fuel generalizing b remain with
  | zero => simp [discardLoop] at h
  | succ fuel ih =>
    unfold discardLoop at h
    simp only at h
    have hwf1 : WF (if b.nbuf = 0 then b.fill else b) := by
      split
      · exact fill_wf b hwf
      · exact hwf
    have hrest1 : (if b.nbuf = 0 then b.fill else b).rest = b.rest := by
      split
      · exact fill_rest b
      · rfl
    generalize (if b.nbuf = 0 then b.fill else b) = b1 at h hwf1 hrest1
    split at h
    · rename_i hz
      simp only [Prod.mk.injEq, true_and] at h
      obtain ⟨h1, h3⟩ := h
      subst h1 h3
      refine ⟨advance_wf b1 _ hwf1, rfl, ?_⟩
      simp only [advance, List.length_drop, hrest1]
      unfold WF at hwf1
      rw [hrest1] at hwf1
      omega
    · split at h
      · simp at h
      · rename_i hz _
        have := ih (b1.advance (min b1.nbuf remain)) (remain - min b1.nbuf remain) h
          (advance_wf b1 _ hwf1) (by omega)
        refine ⟨this.1, this.2.1, ?_⟩
        have h3 := this.2.2
        simp only [advance, List.length_drop, hrest1] at h3
        unfold WF at hwf1
        rw [hrest1] at hwf1
        omega

theorem Discard_len (b : Reader) (n : Int) (cnt : Nat) (b' : Reader)
    (h : b.Discard n = (cnt, none, b')) (hwf : WF b) :
    WF b' ∧ cnt + b'.rest.length = b.rest.length ∧ (0 ≤ n → cnt = n.toNat) := by
  unfold Discard at h
  split at h
  · simp at h
  · split at h
    · rename_i hz
      simp only [Prod.mk.injEq, true_and] at h
      obtain ⟨h1, h3⟩ := h
      subst h1 h3
      exact ⟨hwf, by simp, fun _ => by simp [hz]⟩
    · have := discardLoop_len _ b n.toNat n.toNat cnt b' h hwf (le_refl _)
      refine ⟨this.1, ?_, fun _ => this.2.1⟩
      have h2 := this.2.2
      rw [this.2.1]
      omega

end Reader

/-! ## Lemmas on the parser: recovered entries lie inside the parsed file -/

theorem Atoi_range (s : Bytes) (v : Int) (h : Atoi s = some v) :
    -(2 : Int) ^ 63 ≤ v ∧ v ≤ 2 ^ 63 - 1 := by
  unfold Atoi at h
  simp only at h
  generalize (if s.head? = some 45 ∨ s.head? = some 43 then s.tail else s) = ds at h
  generalize decide (s.head? = some 45) = neg at h
  by_cases hds : ds = []
  · rw [if_pos hds] at h
    exact absurd h (by simp)
  · rw [if_neg hds] at h
    cases hp : parseDigits ds 0 with
    | none =>
      rw [hp] at h
      exact absurd h (by simp)
    | some n =>
      rw [hp] at h
      simp only at h
      by_cases hr : -(2 : Int) ^ 63 ≤ (if neg = true then -(n : Int) else (n : Int)) ∧
          (if neg = true then -(n : Int) else (n : Int)) ≤ 2 ^ 63 - 1
      · rw [if_pos hr] at h
        rw [← Option.some.inj h]
        exact hr
      · rw [if_neg hr] at h
        exact absurd h (by simp)

theorem succ64_of_nonneg (x : Int) (h0 : 0 ≤ x) (h1 : x ≤ 2 ^ 63 - 1) (h2 : 0 ≤ succ64 x) :
    succ64 x = x + 1 := by
  unfold succ64 at *
  omega

theorem parseLoop_bounds (path : FileName) (now : Int) (total : Nat) (fuel : Nat) (r : Reader)
    (curr : Nat) (items res : GoMap Item)
    (h : parseLoop path now fuel r curr items = ParseResult.ok res)
    (hwf : Reader.WF r) (hcurr : curr + r.rest.length = total)
    (hitems : ∀ k it, items.get k = some it → ItemOk path total it) :
    ∀ k it, res.get k = some it → ItemOk path total it := by
  induction fuel generalizing r curr items with
  | zero => simp [parseLoop] at h
  | succ fuel ih =>
    unfold parseLoop at h
    split at h
    · cases h
      exact hitems
    · cases h
    · rename_i _expire r1 hrb1
      have hl1 := Reader.ReadBytes_len r COMMA _expire none r1 hrb1 hwf
      split at h
      · cases h
      · rename_i expire _
        split at h
        · cases h
        · rename_i _keysize r2 hrb2
          have hl2 := Reader.ReadBytes_len r1 COMMA _keysize none r2 hrb2 hl1.1
          split at h
          · cases h
          · rename_i keysize _
            split at h
            · cases h
            · rename_i _valuesize r3 hrb3
              have hl3 := Reader.ReadBytes_len r2 COMMA _valuesize none r3 hrb3 hl2.1
              split at h
              · cases h
              · rename_i valuesize hvs
                split at h
                · cases h
                · split at h
                  · cases h
                  · rename_i got r4 hrd
                    have hl4 := Reader.Read_len r3 _ got none r4 hrd hl3.1
                    split at h
                    · cases h
                    · simp only at h
                      split at h
                      · cases h
                      · rename_i n r5 hdc
                        have hl5 := Reader.Discard_len r4 _ n r5 hdc hl4.1
                        have hvr := Atoi_range _ _ hvs
                        have hd0 : 0 ≤ succ64 valuesize := by
                          by_contra hneg
                          have hlt : succ64 valuesize < 0 := by omega
                          simp [Reader.Discard, hlt] at hdc
                        have hn := hl5.2.2 hd0
                        apply ih r5 _ _ h hl5.1
                        · omega
                        · intro k it hget
                          split at hget
                          · rw [GoMap.get_set] at hget
                            split at hget
                            · cases hget
                              refine ⟨rfl, ?_, ?_⟩
                              · simp only
                                omega
                              · simp only
                                by_cases hv0 : 0 ≤ valuesize
                                · have := succ64_of_nonneg valuesize hv0 hvr.2 hd0
                                  rw [this] at hn
                                  rw [max_eq_left hv0]
                                  have : (n : Int) = valuesize + 1 := by
                                    rw [hn]
                                    omega
                                  push_cast
                                  omega
                                · rw [max_eq_right (by omega)]
                                  push_cast
                                  omega
                            · exact hitems k it hget
                          · rw [GoMap.get_delete] at hget
                            split at hget
                            · cases hget
                            · exact hitems k it hget

theorem parseLogFile_bounds (path : FileName) (now : Int) (content : Bytes) (res : GoMap Item)
    (h : parseLogFile path now content = ParseResult.ok res) :
    ∀ k it, res.get k = some it → ItemOk path content.length it := by
  unfold parseLogFile at h
  apply parseLoop_bounds path now content.length _ _ _ _ _ h
  · simp [Reader.WF]
  · simp
  · intro k it hget
    simp [GoMap.get] at hget

/-! ## Recovery and the invariant of reachable states -/

namespace FS

theorem read_of_mem (fs : FS) (h : (fs.map Prod.fst).Nodup) (n : FileName) (c : Bytes)
    (hm : (n, c) ∈ fs) : read fs n = some c := by
  induction fs with
  | nil => simp at hm
  | cons p t ih =>
    obtain ⟨a, b⟩ := p
    simp only [List.map_cons, List.nodup_cons] at h
    simp only [List.mem_cons, Prod.mk.injEq] at hm
    rcases hm with ⟨h1, h2⟩ | hm
    · subst h1 h2
      simp [read]
    · have hne : ¬ a = n := by
        intro e
        subst e
        exact h.1 (List.mem_map_of_mem Prod.fst hm)
      simp only [read, hne, if_false]
      exact ih h.2 hm

theorem mem_of_read (fs : FS) (n : FileName) (c : Bytes) (h : read fs n = some c) :
    (n, c) ∈ fs := by
  induction fs with
  | nil => simp [read] at h
  | cons p t ih =>
    obtain ⟨a, b⟩ := p
    simp only [read] at h
    split at h
    · rename_i e
      cases h
      subst e
      simp
    · exact List.mem_cons_of_mem _ (ih h)

theorem read_none_of_not_mem (fs : FS) (n : FileName) (h : n ∉ fs.map Prod.fst) :
    read fs n = none := by
  cases hr : read fs n with
  | none => rfl
  | some c => exact absurd (List.mem_map_of_mem Prod.fst (mem_of_read fs n c hr)) h

theorem nodup_create (fs : FS) (h : (fs.map Prod.fst).Nodup) (name : FileName) :
    ((create fs name).map Prod.fst).Nodup := by
  simp only [create, List.map_cons, List.nodup_cons]
  refine ⟨?_, ?_⟩
  · intro hm
    simp only [List.mem_map, List.mem_filter] at hm
    obtain ⟨p, ⟨_, hp⟩, rfl⟩ := hm
    simp at hp
  · exact (List.filter_sublist fs).map Prod.fst |>.nodup h

theorem names_append (fs : FS) (name : FileName) (data : Bytes) :
    (append fs name data).map Prod.fst = fs.map Prod.fst := by
  induction fs with
  | nil => rfl
  | cons p t ih =>
    have hcons : append (p :: t) name data =
        (if p.1 = name then (p.1, p.2 ++ data) else p) :: append t name data := by
      simp [append]
    rw [hcons, List.map_cons, List.map_cons, ih]
    split <;> rfl

end FS

theorem mem_sortedFiles (fs : FS) (p : FileName × Bytes) : p ∈ sortedFiles fs ↔ p ∈ fs :=
  (List.perm_insertionSort _ fs).mem_iff

theorem replay_spec (now : Int) (files : FS) (m m' : mp Item)
    (h : replay now files m = Except.ok m') (hO : Owned m) :
    Owned m' ∧ ∀ k item, GetKey m' k = some item →
      GetKey m k = some item ∨
        ∃ name content keys, (name, content) ∈ files ∧
          parseLogFile name now content = ParseResult.ok keys ∧ keys.get k = some item := by
  induction files generalizing m with
  | nil =>
    simp only [replay, Except.ok.injEq] at h
    subst h
    exact ⟨hO, fun k item hk => Or.inl hk⟩
  | cons p t ih =>
    obtain ⟨name, content⟩ := p
    unfold replay at h
    cases hp : parseLogFile name now content with
    | ok keys =>
      simp only [hp] at h
      have := ih (MSet m keys) h (Owned_MSet m hO keys)
      refine ⟨this.1, ?_⟩
      intro k item hk
      rcases this.2 k item hk with h1 | ⟨n, c, ks, hmem, hparse, hget⟩
      · rw [GetKey_MSet m hO] at h1
        cases hg : GoMap.get keys k with
        | none =>
          rw [hg] at h1
          exact Or.inl (by simpa using h1)
        | some it =>
          rw [hg] at h1
          simp only [Option.orElse, Option.some.injEq] at h1
          subst h1
          exact Or.inr ⟨name, content, keys, by simp, hp, hg⟩
      · exact Or.inr ⟨n, c, ks, List.mem_cons_of_mem _ hmem, hparse, hget⟩
    | error e => simp [hp] at h
    | panic => simp [hp] at h

/-- What a successful `CreateLogStore` returns. -/
theorem CreateLogStore_ok {env : CreateEnv} {fs : FS} {opts : Option Int} {s : Store}
    {fs' : FS} (h : CreateLogStore env fs opts = CreateResult.ok s fs') :
    replay env.now (sortedFiles fs) (CreateMap Item) = Except.ok s.mp ∧
      s.maxLogFileBytes = opts.getD MAX_LOG_FILE_BYTES ∧ s.logFile.closed = false ∧
      ((s.logFile.name = logFileId env.nameTime env.suffix ∧
          fs' = fs.create (logFileId env.nameTime env.suffix)) ∨
        (fs' = fs ∧ ∃ content, (s.logFile.name, content) ∈ fs ∧
          (content.length : Int) < opts.getD MAX_LOG_FILE_BYTES)) := by
  unfold CreateLogStore at h
  simp only at h
  split at h
  · cases h
  · split at h
    · cases h
    · split at h
      · cases h
      · cases h
      · cases h
      · rename_i concurrentMap hrep
        have hcreate : ∀ r : CreateResult,
            (match createLogFile env.nameTime env.suffix env.createFails fs with
              | none => CreateResult.error Err.create
              | some (f, fs1) =>
                CreateResult.ok ⟨concurrentMap, f, opts.getD MAX_LOG_FILE_BYTES⟩ fs1) = r →
            r = CreateResult.ok s fs' →
            s.mp = concurrentMap ∧ s.maxLogFileBytes = opts.getD MAX_LOG_FILE_BYTES ∧
              s.logFile.closed = false ∧
              s.logFile.name = logFileId env.nameTime env.suffix ∧
              fs' = fs.create (logFileId env.nameTime env.suffix) := by
          intro r hr hok
          unfold createLogFile at hr
          cases hcf : env.createFails with
          | true =>
            rw [hcf] at hr
            simp only [if_true] at hr
            rw [← hr] at hok
            cases hok
          | false =>
            rw [hcf] at hr
            simp only [Bool.false_eq_true, if_false] at hr
            rw [← hr] at hok
            cases hok
            exact ⟨rfl, rfl, rfl, rfl, rfl⟩
        split at h
        · rename_i latest content hlast
          have hmem : (latest, content) ∈ fs :=
            (mem_sortedFiles fs _).mp (List.mem_of_getLast?_eq_some hlast)
          split at h
          · cases h
          · split at h
            · obtain ⟨h1, h2, h3, h4, h5⟩ := hcreate _ rfl h
              rw [h1]
              exact ⟨hrep, h2, h3, Or.inl ⟨h4, h5⟩⟩
            · rename_i hsz
              split at h
              · cases h
              · cases h
                exact ⟨hrep, rfl, rfl, Or.inr ⟨rfl, content, hmem, by omega⟩⟩
        · obtain ⟨h1, h2, h3, h4, h5⟩ := hcreate _ rfl h
          rw [h1]
          exact ⟨hrep, h2, h3, Or.inl ⟨h4, h5⟩⟩

/-- The files after a successful `Set` whose new segment name, if one is
created, is not in use: the active segment holds its previous content `c0`
followed by the record, and every other file is as before. -/
theorem Set_files {env : SetEnv} {s : Store} {fs : FS} {k : Bytes} {e : Int} {v : Bytes}
    {s' : Store} {fs' : FS} (h : Set env s fs k e v = (none, s', fs'))
    (hfresh : FreshName env.nameTime env.suffix fs) :
    ∃ c0 : Bytes,
      fs'.read s'.logFile.name = some (c0 ++ recordBytes k e v) ∧
      (∀ name, name ≠ s'.logFile.name → fs'.read name = fs.read name) ∧
      ((rollsOver c0.length k e v s.maxLogFileBytes = false ∧
          fs.read s'.logFile.name = some c0 ∧ s'.logFile = s.logFile) ∨
        (c0 = [] ∧ fs.read s'.logFile.name = none ∧
          s'.logFile = ⟨logFileId env.nameTime env.suffix, false⟩)) ∧
      s'.logFile.closed = false ∧ s'.maxLogFileBytes = s.maxLogFileBytes ∧
      s'.mp = if e ≤ env.now then DeleteKey s.mp k
        else SetKey s.mp k
          ⟨s'.logFile.name, e, ((c0.length + (recordLine k e v).length : Nat) : Int),
            (v.length : Int)⟩ := by
  obtain ⟨size, f, fs1, pos, hst, hcase, hclosed, hfs, hlf, hmax, hmp⟩ := Set_ok h
  rcases hcase with ⟨hr, hf, hfs1, hpos⟩ | ⟨hr, _, hf, hfs1, hpos⟩
  · unfold statSize at hst
    cases hread : fs.read s.logFile.name with
    | none => simp [hread] at hst
    | some c =>
      have hsz : c.length = size := by
        have : (env.statFails || s.logFile.closed) = false := by
          cases hb : (env.statFails || s.logFile.closed) with
          | false => rfl
          | true => simp [hb] at hst
        simpa [this, hread] using hst
      refine ⟨c, ?_, ?_, Or.inl ⟨by rw [hsz]; exact hr, by rw [hlf, hf]; exact hread,
        by rw [hlf, hf]⟩, by rw [hlf]; exact hclosed, hmax, ?_⟩
      · rw [hfs, hlf, hfs1, FS.read_append, if_pos rfl, hf, hread]
        rfl
      · intro name hne
        rw [hlf] at hne
        rw [hfs, hfs1, FS.read_append, if_neg hne]
      · rw [hmp, hlf, hsz, hpos]
  · unfold FreshName at hfresh
    refine ⟨[], ?_, ?_, Or.inr ⟨rfl, by rw [hlf, hf]; exact hfresh, by rw [hlf, hf]⟩,
      by rw [hlf]; exact hclosed, hmax, ?_⟩
    · rw [hfs, hlf, hfs1, FS.read_append, if_pos rfl, hf, FS.read_create, if_pos rfl]
      rfl
    · intro name hne
      rw [hlf] at hne
      rw [hfs, hfs1, FS.read_append, if_neg hne, FS.read_create]
      rw [hf] at hne
      rw [if_neg hne]
    · rw [hmp, hlf, hpos]
      simp

theorem Set_read_mono {env : SetEnv} {s : Store} {fs : FS} {k : Bytes} {e : Int} {v : Bytes}
    {s' : Store} {fs' : FS} (h : Set env s fs k e v = (none, s', fs'))
    (hfresh : FreshName env.nameTime env.suffix fs) (name : FileName) (c : Bytes)
    (hread : fs.read name = some c) :
    fs'.read name = some c ∨ fs'.read name = some (c ++ recordBytes k e v) := by
  obtain ⟨c0, hnew, hother, hcase, _⟩ := Set_files h hfresh
  by_cases hn : name = s'.logFile.name
  · subst hn
    rcases hcase with ⟨_, hold, _⟩ | ⟨_, hold, _⟩
    · rw [hold] at hread
      cases hread
      exact Or.inr hnew
    · rw [hold] at hread
      cases hread
  · exact Or.inl (by rw [hother name hn, hread])

theorem ItemOk_mono {path : FileName} {a b : Nat} {item : Item} (h : ItemOk path a item)
    (hab : a ≤ b) : ItemOk path b item := by
  obtain ⟨h1, h2, h3⟩ := h
  exact ⟨h1, h2, by omega⟩

theorem Get_store {env : GetEnv} {s : Store} {fs : FS} {k : Bytes} {r : GetResult}
    {s' : Store} (h : Get env s fs k = (r, s')) :
    s'.logFile = s.logFile ∧ s'.maxLogFileBytes = s.maxLogFileBytes ∧
      (s'.mp = s.mp ∨ s'.mp = DeleteKey s.mp k) := by
  unfold Get at h
  split at h
  · cases h
    exact ⟨rfl, rfl, Or.inl rfl⟩
  · split at h
    · cases h
      exact ⟨rfl, rfl, Or.inr rfl⟩
    · split at h
      · cases h
        exact ⟨rfl, rfl, Or.inl rfl⟩
      · split at h
        · cases h
          exact ⟨rfl, rfl, Or.inl rfl⟩
        · simp only at h
          split at h
          · cases h
            exact ⟨rfl, rfl, Or.inl rfl⟩
          · cases h
            exact ⟨rfl, rfl, Or.inl rfl⟩

theorem Inv_Set {M : Int} {env : SetEnv} {s : Store} {fs : FS} {k : Bytes} {e : Int}
    {v : Bytes} {s' : Store} {fs' : FS} (hinv : Inv M s fs)
    (hfresh : FreshName env.nameTime env.suffix fs)
    (h : Set env s fs k e v = (none, s', fs')) : Inv M s' fs' := by
  obtain ⟨c0, hnew, hother, hcase, hclosed, hmax, hmp⟩ := Set_files h hfresh
  have hold : ∀ k' item, GetKey s.mp k' = some item →
      ∃ c, fs'.read item.file = some c ∧ ItemOk item.file c.length item := by
    intro k' item hk
    obtain ⟨c, hc, hok⟩ := hinv.hidx k' item hk
    rcases Set_read_mono h hfresh item.file c hc with h1 | h1
    · exact ⟨c, h1, hok⟩
    · exact ⟨_, h1, ItemOk_mono hok (by simp)⟩
  refine ⟨by rw [hmax]; exact hinv.hmax, hclosed, ⟨_, hnew⟩, ?_, ?_, ?_⟩
  · rw [hmp]
    split
    · exact Owned_DeleteKey _ hinv.howned _
    · exact Owned_SetKey _ hinv.howned _ _
  · intro k' item hk
    rw [hmp] at hk
    split at hk
    · rw [GetKey_DeleteKey _ hinv.howned.1] at hk
      split at hk
      · cases hk
      · exact hold k' item hk
    · rw [GetKey_SetKey _ hinv.howned.1] at hk
      split at hk
      · cases hk
        refine ⟨_, hnew, rfl, ?_, ?_⟩
        · simp only
          omega
        · simp only [recordBytes, List.length_append, List.length_singleton]
          have : max ((v.length : Nat) : Int) 0 = (v.length : Int) := max_eq_left (by omega)
          rw [this]
          push_cast
          omega
      · exact hold k' item hk
  · obtain ⟨size, f, fs1, pos, _, hcase2, _, hfs, _, _, _⟩ := Set_ok h
    rw [hfs, FS.names_append]
    rcases hcase2 with ⟨_, _, hfs1, _⟩ | ⟨_, _, _, hfs1, _⟩
    · rw [hfs1]
      exact hinv.hnodup
    · rw [hfs1]
      exact FS.nodup_create fs hinv.hnodup _

theorem Inv_Get {M : Int} {env : GetEnv} {s : Store} {fs : FS} {k : Bytes} {r : GetResult}
    {s' : Store} (hinv : Inv M s fs) (h : Get env s fs k = (r, s')) : Inv M s' fs := by
  obtain ⟨hlf, hmax, hmp⟩ := Get_store h
  refine ⟨by rw [hmax]; exact hinv.hmax, by rw [hlf]; exact hinv.hopen,
    by rw [hlf]; exact hinv.hfile, ?_, ?_, hinv.hnodup⟩
  · rcases hmp with e | e
    · rw [e]
      exact hinv.howned
    · rw [e]
      exact Owned_DeleteKey _ hinv.howned _
  · intro k' item hk
    rcases hmp with e | e
    · rw [e] at hk
      exact hinv.hidx k' item hk
    · rw [e, GetKey_DeleteKey _ hinv.howned.1] at hk
      split at hk
      · cases hk
      · exact hinv.hidx k' item hk

theorem GetKey_CreateMap (V : Type) (k : Bytes) : GetKey (CreateMap V) k = none := by
  simp [GetKey, getShard, CreateMap, List.getD_eq_getElem?_getD, List.getElem?_replicate,
    shardIndex_lt k, GoMap.get]

/-- A successful `CreateLogStore` on a directory without duplicate names
builds a store that satisfies the invariant. -/
theorem Inv_CreateLogStore {M : Int} {env : CreateEnv} {fs : FS} {opts : Option Int}
    {s : Store} {fs' : FS} (hM : opts.getD MAX_LOG_FILE_BYTES = M)
    (hnodup : (fs.map Prod.fst).Nodup) (hfresh : FreshName env.nameTime env.suffix fs)
    (h : CreateLogStore env fs opts = CreateResult.ok s fs') : Inv M s fs' := by
  obtain ⟨hrep, hmax, hclosed, hcase⟩ := CreateLogStore_ok h
  obtain ⟨hO, hitems⟩ := replay_spec env.now (sortedFiles fs) _ _ hrep Owned_CreateMap
  have hidx0 : ∀ k item, GetKey s.mp k = some item →
      ∃ c, fs.read item.file = some c ∧ ItemOk item.file c.length item := by
    intro k item hk
    rcases hitems k item hk with h0 | ⟨name, content, keys, hmem, hparse, hget⟩
    · rw [GetKey_CreateMap] at h0
      cases h0
    · have hok := parseLogFile_bounds name env.now content keys hparse k item hget
      have hread := FS.read_of_mem fs hnodup name content ((mem_sortedFiles fs _).mp hmem)
      refine ⟨content, ?_, ?_⟩
      · rw [hok.1]
        exact hread
      · rw [hok.1]
        exact hok
  rcases hcase with ⟨hname, hfs'⟩ | ⟨hfs', content, hmem, _⟩
  · refine ⟨by rw [hmax, hM], hclosed, ⟨[], by rw [hfs', hname, FS.read_create, if_pos rfl]⟩,
      hO, ?_, by rw [hfs']; exact FS.nodup_create fs hnodup _⟩
    intro k item hk
    obtain ⟨c, hc, hok⟩ := hidx0 k item hk
    refine ⟨c, ?_, hok⟩
    rw [hfs', FS.read_create]
    have hne : item.file ≠ logFileId env.nameTime env.suffix := by
      intro e
      unfold FreshName at hfresh
      rw [← e, hc] at hfresh
      cases hfresh
    rw [if_neg hne]
    exact hc
  · refine ⟨by rw [hmax, hM], hclosed,
      ⟨content, by rw [hfs']; exact FS.read_of_mem fs hnodup _ _ hmem⟩, hO, ?_,
      by rw [hfs']; exact hnodup⟩
    rw [hfs']
    exact hidx0

theorem Inv_of_Reachable {M : Int} {s : Store} {fs : FS} (h : Reachable M s fs) :
    Inv M s fs := by
  induction h with
  | create env opts s fs hM hc =>
    exact Inv_CreateLogStore hM (by simp) (by simp [FreshName, FS.read]) hc
  | set env s fs k e v s' fs' _ hfresh hset ih => exact Inv_Set ih hfresh hset
  | get env s fs k r s' _ hget ih => exact Inv_Get ih hget
  | restart env s fs s' fs' _ hfresh hc ih =>
    exact Inv_CreateLogStore (show (some M).getD MAX_LOG_FILE_BYTES = M from rfl)
      ih.hnodup hfresh hc

/-! ## The read path -/

theorem SizeOk_of_read {M : Int} {fs fs' : FS}
    (h : ∀ name c, fs'.read name = some c →
      fs.read name = some c ∨ (c.length : Int) ≤ M ∨ ∃ k e v, c = recordBytes k e v)
    (hs : SizeOk M fs) : SizeOk M fs' := by
  intro name c hc
  rcases h name c hc with h1 | h1
  · exact hs name c h1
  · exact h1

/-- A `Set` in a quiet environment on a store whose active handle is open on
an existing file returns no error. -/
theorem Set_quiet_ok (s : Store) (fs : FS) (hopen : s.logFile.closed = false)
    (hfile : ∃ c, fs.read s.logFile.name = some c) (now t : Int) (suffix k : Bytes)
    (e : Int) (v : Bytes) :
    ∃ s' fs', Set (SetEnv.quiet now t suffix) s fs k e v = (none, s', fs') := by
  obtain ⟨c, hc⟩ := hfile
  unfold Set
  simp only [statSize, SetEnv.quiet, hopen, hc, Bool.or_self, Bool.false_eq_true, if_false,
    Option.map_some']
  cases hr : rollsOver c.length k e v s.maxLogFileBytes with
  | false =>
    simp only [Bool.false_eq_true, if_false, writeFile, hopen]
    split
    · exact ⟨_, _, rfl⟩
    · exact ⟨_, _, rfl⟩
  | true =>
    simp only [if_true, nextLogFile, createLogFile, Bool.false_eq_true, if_false, writeFile]
    split
    · exact ⟨_, _, rfl⟩
    · exact ⟨_, _, rfl⟩

/-- The result of `Get` on a key that has an unexpired index entry whose file
can be opened. -/
theorem Get_hit (env : GetEnv) (s : Store) (fs : FS) (k : Bytes) (item : Item) (c : Bytes)
    (hk : GetKey s.mp k = some item) (hexp : env.now < item.expire)
    (hopen : env.openFails = false) (hread : fs.read item.file = some c)
    (hpos : 0 ≤ item.valuePos) :
    Get env s fs k =
      (if item.valueSize ≤ ((valueBytes item c).length : Int) then
          ⟨true, none, valueBytes item c⟩
        else ⟨true, some Err.copy, valueBytes item c⟩, s) := by
  unfold Get
  have h1 : ¬ item.expire ≤ env.now := by omega
  have h2 : ¬ item.valuePos < 0 := by omega
  simp only [hk, h1, if_false, hopen, Bool.false_eq_true, hread, h2, valueBytes]
  split <;> rfl

theorem valueBytes_append (item : Item) (c x : Bytes) (h : ItemOk item.file c.length item) :
    valueBytes item (c ++ x) = valueBytes item c ∧
      item.valueSize ≤ ((valueBytes item c).length : Int) := by
  obtain ⟨_, h0, hle⟩ := h
  have hp : item.valuePos.toNat + item.valueSize.toNat ≤ c.length := by
    have h1 : (item.valuePos.toNat : Int) = item.valuePos := Int.toNat_of_nonneg h0
    have h2 : (item.valueSize.toNat : Int) = max item.valueSize 0 := by
      rw [Int.toNat_eq_max]
    omega
  have hlen : (valueBytes item c).length = item.valueSize.toNat := by
    simp only [valueBytes, List.length_take, List.length_drop]
    omega
  refine ⟨?_, ?_⟩
  · unfold valueBytes
    rw [List.drop_append_of_le_length (by omega)]
    rw [List.take_append_of_le_length (by simp only [List.length_drop]; omega)]
  · rw [hlen]
    omega

/-- The result of `Get` depends on the index entry of the key and on the bytes
of the entry's file at the entry's position. -/
theorem Get_congr (env : GetEnv) (s s' : Store) (fs fs' : FS) (k : Bytes)
    (hk : GetKey s'.mp k = GetKey s.mp k)
    (hv : ∀ item, GetKey s.mp k = some item →
      (fs'.read item.file).map (valueBytes item) = (fs.read item.file).map (valueBytes item)) :
    (Get env s' fs' k).1 = (Get env s fs k).1 := by
  unfold Get
  rw [hk]
  cases hg : GetKey s.mp k with
  | none => rfl
  | some item =>
    simp only
    split
    · rfl
    · have hv' := hv item hg
      cases hof : env.openFails with
      | true => simp
      | false =>
        simp only [Bool.false_eq_true, if_false]
        cases h1 : fs.read item.file with
        | none =>
          rw [h1] at hv'
          cases h2 : fs'.read item.file with
          | none => rfl
          | some c' =>
            rw [h2] at hv'
            simp at hv'
        | some c =>
          rw [h1] at hv'
          cases h2 : fs'.read item.file with
          | none =>
            rw [h2] at hv'
            simp at hv'
          | some c' =>
            rw [h2] at hv'
            simp only [Option.map_some', Option.some.injEq] at hv'
            simp only [valueBytes] at hv'
            simp only
            split
            · rfl
            · rw [hv']
              split <;> rfl

/-! ## The engine: claims C1, C3, C4, C5 and C7 -/

/-- C1: in every reachable state, for every key `k`, payload `v` and expiry
`e` that is after the clock at the `Set` and at the `Get`, and with no I/O
failure, `Set(k, e, v)` returns no error and the `Get(k)` that follows returns
`(true, nil)`, has written exactly `v` to the sink and leaves the store as it
is, whether or not the `Set` rolled the segment over. -/
theorem set_get_round_trip (M : Int) (s : Store) (fs : FS) (hreach : Reachable M s fs)
    (k v : Bytes) (e nowSet nowGet t : Int) (suffix : Bytes)
    (hset : nowSet < e) (hget : nowGet < e) :
    ∃ s' fs', Set (SetEnv.quiet nowSet t suffix) s fs k e v = (none, s', fs') ∧
      Get ⟨nowGet, false⟩ s' fs' k = (⟨true, none, v⟩, s') := by
  have hinv := Inv_of_Reachable hreach
  obtain ⟨s', fs', hS⟩ := Set_quiet_ok s fs hinv.hopen hinv.hfile nowSet t suffix k e v
  refine ⟨s', fs', hS, ?_⟩
  obtain ⟨size, f, fs1, pos, hst, hcase, _, hfs, hlf, _, hmp⟩ := Set_ok hS
  have hne : ¬ e ≤ (SetEnv.quiet nowSet t suffix).now := by
    simp only [SetEnv.quiet]
    omega
  rw [if_neg hne] at hmp
  have hk : GetKey s'.mp k = some ⟨f.name, e, ((pos + (recordLine k e v).length : Nat) : Int),
      (v.length : Int)⟩ := by
    rw [hmp, GetKey_SetKey _ hinv.howned.1, if_pos rfl]
  have hcontent : ∃ c0 : Bytes, c0.length = pos ∧
      fs'.read f.name = some (c0 ++ recordBytes k e v) := by
    rw [hfs, FS.read_append, if_pos rfl]
    rcases hcase with ⟨_, hf, hfs1, hpos⟩ | ⟨_, _, hf, hfs1, hpos⟩
    · unfold statSize at hst
      cases hread : fs.read s.logFile.name with
      | none => simp [hread] at hst
      | some c =>
        have hb : (SetEnv.quiet nowSet t suffix).statFails = false := rfl
        simp only [hb, hinv.hopen, Bool.or_self, Bool.false_eq_true, if_false, hread,
          Option.map_some', Option.some.injEq] at hst
        refine ⟨c, by rw [hst, hpos], ?_⟩
        rw [hfs1, hf, hread]
        rfl
    · refine ⟨[], by rw [hpos]; rfl, ?_⟩
      rw [hfs1, hf, FS.read_create, if_pos rfl]
      rfl
  obtain ⟨c0, hc0, hread⟩ := hcontent
  have hval : valueBytes ⟨f.name, e, ((pos + (recordLine k e v).length : Nat) : Int),
      (v.length : Int)⟩ (c0 ++ recordBytes k e v) = v := by
    simp only [valueBytes, Int.toNat_ofNat]
    have : c0 ++ recordBytes k e v = (c0 ++ recordLine k e v) ++ (v ++ [COMMA]) := by
      simp [recordBytes]
    rw [this, ← hc0, ← List.length_append, List.drop_left, List.take_left]
  rw [Get_hit ⟨nowGet, false⟩ s' fs' k _ _ hk hget rfl hread (by simp only; omega), hval]
  simp

/-- Witness for C1: `Set("k", 5000, "v")` on a fresh store at clock 1000. -/
theorem set_get_round_trip_witness :
    Reachable MAX_LOG_FILE_BYTES store0 fs0 ∧
      ∃ s' fs', Set (SetEnv.quiet 1000 2 (str "b")) store0 fs0 (str "k") 5000 (str "v") =
          (none, s', fs') ∧
        Get ⟨1000, false⟩ s' fs' (str "k") = (⟨true, none, str "v"⟩, s') :=
  ⟨Reachable.create (CreateEnv.quiet 1000 1 (str "a")) none store0 fs0 rfl (by decide),
    set_get_round_trip MAX_LOG_FILE_BYTES store0 fs0
      (Reachable.create (CreateEnv.quiet 1000 1 (str "a")) none store0 fs0 rfl (by decide))
      (str "k") (str "v") 5000 1000 1000 2 (str "b") (by decide) (by decide)⟩

/-- C3, the code at a failing input: the key `k,` is written with a future
expiry, then the key `k` is deleted.  Before the restart `Get("k,")` returns
the value; the replay of the same directory deletes the entry of `k,` when it
meets the expired record of `k`, and after the restart `Get("k,")` finds
nothing. -/
theorem restart_drops_live_key :
    Reachable MAX_LOG_FILE_BYTES commaKeyDeleted.2.1 commaKeyDeleted.2.2 ∧
      commaKeyDeleted.2.2 = [(str "1-a", str "5000,2,1,k,,v,0,1,0,k,,")] ∧
      (Get ⟨1000, false⟩ commaKeyDeleted.2.1 commaKeyDeleted.2.2 (str "k,")).1 =
        ⟨true, none, str "v"⟩ ∧
      parseLogFile (str "1-a") 1000 (str "5000,2,1,k,,v,0,1,0,k,,") = ParseResult.ok [] ∧
      CreateLogStore (CreateEnv.quiet 1000 3 (str "c")) commaKeyDeleted.2.2 none =
        CreateResult.ok store0 commaKeyDeleted.2.2 ∧
      (Get ⟨1000, false⟩ store0 commaKeyDeleted.2.2 (str "k,")).1 = ⟨false, none, []⟩ :=
  ⟨Reachable.set (SetEnv.quiet 1000 2 (str "b")) commaKey.2.1 commaKey.2.2 (str "k") 0 []
      commaKeyDeleted.2.1 commaKeyDeleted.2.2
      (Reachable.set (SetEnv.quiet 1000 2 (str "b")) store0 fs0 (str "k,") 5000 (str "v")
        commaKey.2.1 commaKey.2.2
        (Reachable.create (CreateEnv.quiet 1000 1 (str "a")) none store0 fs0 rfl (by decide))
        (by decide) (by decide))
      (by decide) (by decide),
    by decide, by decide, by decide, by decide, by decide⟩

/-- C7, the code at a failing input: a segment that holds one complete record
followed by the first two bytes of the next record, cut inside its expiry
field.  `parseLogFile` returns the item map without an error. -/
theorem truncated_expiry_is_accepted :
    recordBytes (str "k") 5000 (str "v") ++ (recordBytes (str "j") 6000 (str "w")).take 2 =
        str "5000,1,1,k,v,60" ∧
      parseLogFile (str "1-a") 1000 (str "5000,1,1,k,v,60") =
        ParseResult.ok [(str "k", ⟨str "1-a", 5000, 11, 1⟩)] := by
  decide

theorem SizeOk_Set {M : Int} {env : SetEnv} {s : Store} {fs : FS} {k : Bytes} {e : Int}
    {v : Bytes} {s' : Store} {fs' : FS} (hmax : s.maxLogFileBytes = M)
    (hfresh : FreshName env.nameTime env.suffix fs)
    (h : Set env s fs k e v = (none, s', fs')) (hs : SizeOk M fs) : SizeOk M fs' := by
  obtain ⟨c0, hnew, hother, hcase, _⟩ := Set_files h hfresh
  apply SizeOk_of_read _ hs
  intro name c hc
  by_cases hn : name = s'.logFile.name
  · subst hn
    rw [hnew] at hc
    cases hc
    rcases hcase with ⟨hr, _, _⟩ | ⟨h0, _, _⟩
    · right
      left
      simp only [rollsOver, decide_eq_false_iff_not, hmax] at hr
      simp only [recordBytes, List.length_append, List.length_singleton]
      push_cast at hr ⊢
      omega
    · right
      right
      exact ⟨k, e, v, by rw [h0]; rfl⟩
  · left
    rw [← hother name hn]
    exact hc

theorem SizeOk_CreateLogStore {M : Int} {env : CreateEnv} {fs : FS} {opts : Option Int}
    {s : Store} {fs' : FS} (hM : 0 ≤ M)
    (h : CreateLogStore env fs opts = CreateResult.ok s fs') (hs : SizeOk M fs) :
    SizeOk M fs' := by
  obtain ⟨_, _, _, hcase⟩ := CreateLogStore_ok h
  rcases hcase with ⟨_, hfs'⟩ | ⟨hfs', _⟩
  · apply SizeOk_of_read _ hs
    intro name c hc
    rw [hfs', FS.read_create] at hc
    split at hc
    · cases hc
      right
      left
      simpa using hM
    · exact Or.inl hc
  · rw [hfs']
    exact hs

theorem SizeOk_of_Reachable {M : Int} (hM : 0 ≤ M) {s : Store} {fs : FS}
    (h : Reachable M s fs) : SizeOk M fs := by
  induction h with
  | create env opts s fs _ hc =>
    exact SizeOk_CreateLogStore hM hc (fun name c hr => by simp [FS.read] at hr)
  | set env s fs k e v s' fs' hr hfresh hset ih =>
    exact SizeOk_Set (Inv_of_Reachable hr).hmax hfresh hset ih
  | get env s fs k r s' _ _ ih => exact ih
  | restart env s fs s' fs' _ _ hc ih => exact SizeOk_CreateLogStore hM hc ih

/-- C4: in every reachable state, a successful `Set(k, e, v)`, with or without
a rollover (the name of a new segment not being in use), leaves `Get(k')` for
every other key `k'` with the same found flag, the same error and the same
bytes on the sink as before the `Set`, at the same clock value. -/
theorem set_keeps_other_keys (M : Int) (s : Store) (fs : FS) (hreach : Reachable M s fs)
    (env : SetEnv) (k k' : Bytes) (e : Int) (v : Bytes) (s' : Store) (fs' : FS)
    (hne : k' ≠ k) (hfresh : FreshName env.nameTime env.suffix fs)
    (hset : Set env s fs k e v = (none, s', fs')) (genv : GetEnv) :
    (Get genv s' fs' k').1 = (Get genv s fs k').1 := by
  have hinv := Inv_of_Reachable hreach
  obtain ⟨_, _, _, _, _, _, hmp⟩ := Set_files hset hfresh
  apply Get_congr
  · rw [hmp]
    split
    · rw [GetKey_DeleteKey _ hinv.howned.1, if_neg hne]
    · rw [GetKey_SetKey _ hinv.howned.1, if_neg hne]
  · intro item hk
    obtain ⟨c, hc, hok⟩ := hinv.hidx k' item hk
    rcases Set_read_mono hset hfresh item.file c hc with h1 | h1
    · rw [h1, hc]
    · rw [h1, hc]
      simp only [Option.map_some', Option.some.injEq]
      exact (valueBytes_append item c _ hok).1

/-- Witness for C4: after `Set("k", 5000, "v")` the key `j` is written, and
`Get("k")` returns what it returned before. -/
theorem set_keeps_other_keys_witness :
    Reachable MAX_LOG_FILE_BYTES liveK.2.1 liveK.2.2 ∧
      (Get ⟨1000, false⟩
          (Set (SetEnv.quiet 1000 2 (str "b")) liveK.2.1 liveK.2.2 (str "j") 6000 (str "w")).2.1
          (Set (SetEnv.quiet 1000 2 (str "b")) liveK.2.1 liveK.2.2 (str "j") 6000 (str "w")).2.2
          (str "k")).1 =
        (Get ⟨1000, false⟩ liveK.2.1 liveK.2.2 (str "k")).1 :=
  ⟨Reachable.set (SetEnv.quiet 1000 2 (str "b")) store0 fs0 (str "k") 5000 (str "v")
      liveK.2.1 liveK.2.2
      (Reachable.create (CreateEnv.quiet 1000 1 (str "a")) none store0 fs0 rfl (by decide))
      (by decide) (by decide),
    set_keeps_other_keys MAX_LOG_FILE_BYTES liveK.2.1 liveK.2.2
      (Reachable.set (SetEnv.quiet 1000 2 (str "b")) store0 fs0 (str "k") 5000 (str "v")
        liveK.2.1 liveK.2.2
        (Reachable.create (CreateEnv.quiet 1000 1 (str "a")) none store0 fs0 rfl (by decide))
        (by decide) (by decide))
      (SetEnv.quiet 1000 2 (str "b")) (str "j") (str "k") 6000 (str "w") _ _
      (by decide) (by decide) rfl ⟨1000, false⟩⟩

/-! ## Decimal text -/

theorem formatBits_acc (fuel n : Nat) (acc : Bytes) :
    formatBits fuel n acc = formatBits fuel n [] ++ acc := by
  induction fuel generalizing n acc with
  | zero => simp [formatBits]
  | succ fuel ih =>
    unfold formatBits
    split
    · simp
    · rw [ih (n / 10) (digit (n % 10) :: acc), ih (n / 10) [digit (n % 10)]]
      simp

theorem formatBits_fuel (fuel fuel' n : Nat) (acc : Bytes) (h : n < fuel) (h' : n < fuel') :
    formatBits fuel n acc = formatBits fuel' n acc := by
  induction fuel generalizing fuel' n acc with
  | zero => omega
  | succ fuel ih =>
    cases fuel' with
    | zero => omega
    | succ fuel' =>
      unfold formatBits
      split
      · rfl
      · exact ih fuel' (n / 10) _ (by omega) (by omega)

/-- The decimal text of `n` is its last digit, preceded by the text of
`n / 10` when `n` has more than one digit. -/
theorem formatNat_eq (n : Nat) :
    formatNat n = if n < 10 then [digit n] else formatNat (n / 10) ++ [digit (n % 10)] := by
  unfold formatNat
  rw [formatBits]
  split
  · rfl
  · rw [formatBits_acc, formatBits_fuel n (n / 10 + 1) (n / 10) [] (by omega) (by omega)]

theorem formatNat_length_le (d n : Nat) (h : n < 10 ^ (d + 1)) :
    (formatNat n).length ≤ d + 1 := by
  induction d generalizing n with
  | zero =>
    rw [formatNat_eq, if_pos (by simpa using h)]
    simp
  | succ d ih =>
    rw [formatNat_eq]
    split
    · simp
    · have : n / 10 < 10 ^ (d + 1) := by
        rw [Nat.div_lt_iff_lt_mul (by decide)]
        rw [pow_succ] at h
        exact h
      have := ih (n / 10) this
      simp only [List.length_append, List.length_singleton]
      omega

theorem formatNat_length_ge (d n : Nat) (h : 10 ^ d ≤ n) :
    d + 1 ≤ (formatNat n).length := by
  induction d generalizing n with
  | zero =>
    rw [formatNat_eq]
    split <;> simp
  | succ d ih =>
    have h10 : 10 ≤ n := by
      have : 10 ^ 1 ≤ 10 ^ (d + 1) := Nat.pow_le_pow_right (by decide) (by omega)
      omega
    rw [formatNat_eq, if_neg (by omega)]
    have : 10 ^ d ≤ n / 10 := by
      rw [Nat.le_div_iff_mul_le (by decide)]
      rw [pow_succ] at h
      exact h
    have := ih (n / 10) this
    simp only [List.length_append, List.length_singleton]
    omega

theorem formatInt_of_nonneg (i : Int) (h : 0 ≤ i) : formatInt i = formatNat i.toNat := by
  unfold formatInt
  rw [if_neg (by omega)]

theorem digit_lt_digit (a b : Nat) (hab : a < b) (hb : b < 10) : digit a < digit b := by
  have ha : a < 10 := by omega
  interval_cases b <;> interval_cases a <;> first | omega | decide

/-! ## The lexicographic order of names -/

theorem nameLess_append_left (l x y : Bytes) (h : nameLess x y) :
    nameLess (l ++ x) (l ++ y) := by
  induction l with
  | nil => exact h
  | cons a t ih =>
    exact List.lt.tail (UInt8.lt_irrefl a) (UInt8.lt_irrefl a) ih

theorem nameLess_append_of_length (l1 l2 x y : Bytes) (h : nameLess l1 l2)
    (hlen : l1.length = l2.length) : nameLess (l1 ++ x) (l2 ++ y) := by
  unfold nameLess at h
  induction h with
  | nil b bs => simp at hlen
  | head as bs hab => exact List.lt.head _ _ hab
  | tail h1 h2 _ ih =>
    simp only [List.length_cons, Nat.add_right_cancel_iff] at hlen
    exact List.lt.tail h1 h2 (ih hlen)

/-- Among numbers with equally long decimal texts, the smaller number has the
smaller text. -/
theorem formatNat_lt (m : Nat) : ∀ n, n < m →
    (formatNat n).length = (formatNat m).length → nameLess (formatNat n) (formatNat m) := by
  induction m using Nat.strong_induction_on with
  | _ m ih =>
    intro n hnm hlen
    by_cases hm : m < 10
    · have hn : n < 10 := by omega
      rw [formatNat_eq n, if_pos hn, formatNat_eq m, if_pos hm]
      exact List.lt.head _ _ (digit_lt_digit n m hnm hm)
    · have hn : ¬ n < 10 := by
        intro hn
        have h1 : (formatNat n).length ≤ 1 := formatNat_length_le 0 n (by simpa using hn)
        have h2 : 2 ≤ (formatNat m).length := formatNat_length_ge 1 m (by simpa using hm)
        omega
      rw [formatNat_eq n, if_neg hn, formatNat_eq m, if_neg hm] at hlen ⊢
      simp only [List.length_append, List.length_singleton, Nat.add_right_cancel_iff] at hlen
      by_cases hq : n / 10 < m / 10
      · exact nameLess_append_of_length _ _ _ _
          (ih (m / 10) (by omega) (n / 10) hq hlen) hlen
      · have heq : n / 10 = m / 10 := by omega
        rw [heq]
        apply nameLess_append_left
        exact List.lt.head _ _ (digit_lt_digit (n % 10) (m % 10) (by omega) (by omega))

/-! ## Segment names: claim C11 -/

/-- C11, as the claim states it, fails: the timestamps 9999999999999 and
10000000000000 are in order, but the name built for the later one sorts first,
because `%d` writes the timestamp without padding and `1` is below `9`. -/
theorem later_name_sorts_first :
    (0 : Int) ≤ 9999999999999 ∧ (9999999999999 : Int) < 10000000000000 ∧
      ¬ nameLess (logFileId 9999999999999 (rndFileString 16 (fun _ => 0)))
        (logFileId 10000000000000 (rndFileString 16 (fun _ => 0))) ∧
      nameLess (logFileId 10000000000000 (rndFileString 16 (fun _ => 0)))
        (logFileId 9999999999999 (rndFileString 16 (fun _ => 0))) := by
  decide

/-- C11, amended: for creation timestamps `0 ≤ t1 < t2` whose decimal texts
have the same number of digits, and for all suffixes, the name built for
`(t1, s1)` is strictly below the name built for `(t2, s2)` in the byte-wise
order, and the comparison that sorts the segments puts it first. -/
theorem segment_names_sorted (t1 t2 : Int) (s1 s2 : Bytes) (h0 : 0 ≤ t1) (hlt : t1 < t2)
    (hlen : (formatInt t1).length = (formatInt t2).length) :
    nameLess (logFileId t1 s1) (logFileId t2 s2) ∧
      ¬ (logFileId t2 s2 ≤ logFileId t1 s1) := by
  have h : nameLess (logFileId t1 s1) (logFileId t2 s2) := by
    unfold logFileId
    rw [formatInt_of_nonneg t1 h0, formatInt_of_nonneg t2 (by omega)] at *
    rw [List.append_assoc, List.append_assoc]
    exact nameLess_append_of_length _ _ _ _
      (formatNat_lt t2.toNat t1.toNat (by omega) hlen) hlen
  exact ⟨h, fun hle => hle h⟩

/-- Witness for C11, amended: two timestamps of thirteen digits. -/
theorem segment_names_sorted_witness :
    (formatInt 1700000000000).length = (formatInt 1700000000001).length ∧
      nameLess (logFileId 1700000000000 (rndFileString 16 (fun _ => 51)))
        (logFileId 1700000000001 (rndFileString 16 (fun _ => 0))) :=
  ⟨by decide,
    (segment_names_sorted 1700000000000 1700000000001 (rndFileString 16 (fun _ => 51))
      (rndFileString 16 (fun _ => 0)) (by decide) (by decide) (by decide)).1⟩

/-! ## Rollover: claims C12 and C13 -/

/-- The store that `CreateLogStore` builds on an empty directory. -/
theorem CreateLogStore_empty {env : CreateEnv} {opts : Option Int} {s : Store} {fs : FS}
    (h : CreateLogStore env [] opts = CreateResult.ok s fs) :
    s = ⟨CreateMap Item, ⟨logFileId env.nameTime env.suffix, false⟩,
        opts.getD MAX_LOG_FILE_BYTES⟩ ∧
      fs = [(logFileId env.nameTime env.suffix, [])] := by
  obtain ⟨hrep, hmax, hclosed, hcase⟩ := CreateLogStore_ok h
  have hmp : s.mp = CreateMap Item := by
    have : sortedFiles ([] : FS) = [] := rfl
    rw [this] at hrep
    simp only [replay, Except.ok.injEq] at hrep
    exact hrep.symm
  rcases hcase with ⟨hname, hfs⟩ | ⟨_, content, hmem, _⟩
  · refine ⟨?_, by rw [hfs]; rfl⟩
    obtain ⟨m, ⟨name, closed⟩, max⟩ := s
    simp only at hmp hmax hclosed hname
    rw [hmp, hmax, hclosed, hname]
  · simp at hmem

theorem recordLine_length_ge (k : Bytes) (e : Int) (v : Bytes) :
    4 ≤ (recordLine k e v).length := by
  simp only [recordLine, List.length_append, List.length_singleton]
  omega

theorem rollsOver_iff (size : Nat) (k : Bytes) (e : Int) (v : Bytes) (max : Int) :
    rollsOver size k e v max = true ↔
      max < (size : Int) + ((recordBytes k e v).length : Int) := by
  simp only [rollsOver, decide_eq_true_eq, recordBytes, List.length_append,
    List.length_singleton]
  push_cast
  omega

/-- C12, as the claim states it, fails: with the expiry `math.MaxInt64` that
the adapter uses for "never", the first `Set` of the scenario rolls over
itself: the record goes to a new segment and the initial segment stays
empty. -/
theorem max_expiry_rolls_over_at_once :
    CreateLogStore (CreateEnv.quiet 1000 1 (str "a")) [] (some 64) =
        CreateResult.ok store64 fs0 ∧
      (Set (SetEnv.quiet 1000 2 (str "b")) store64 fs0 (str "a") 9223372036854775807
          value40).2.1.logFile = ⟨str "2-b", false⟩ ∧
      (Set (SetEnv.quiet 1000 2 (str "b")) store64 fs0 (str "a") 9223372036854775807
          value40).2.2 =
        [(str "2-b", recordBytes (str "a") 9223372036854775807 value40), (str "1-a", [])] := by
  decide

/-- C12, amended: with threshold 64 and a fresh store on an empty directory,
for every expiry `e` of thirteen to fifteen decimal digits
(`10^12 ≤ e < 10^15`), `Set("a", e, value40)` returns no error and stores its
record in the initial segment without rolling over, and whatever `Set` comes
next rolls over: it returns no error, its active segment is a new one and that
segment holds exactly the new record. -/
theorem rollover_scenario (cenv : CreateEnv) (s : Store) (fs : FS)
    (hc : CreateLogStore cenv [] (some 64) = CreateResult.ok s fs) (e : Int)
    (h1 : 1000000000000 ≤ e) (h2 : e < 1000000000000000) (now t : Int) (suffix : Bytes) :
    ∃ s1 fs1, Set (SetEnv.quiet now t suffix) s fs (str "a") e value40 = (none, s1, fs1) ∧
      s1.logFile = s.logFile ∧
      fs1 = [(s.logFile.name, recordBytes (str "a") e value40)] ∧
      ∀ (now2 t2 : Int) (suffix2 k2 : Bytes) (e2 : Int) (v2 : Bytes),
        ∃ s2 fs2, Set (SetEnv.quiet now2 t2 suffix2) s1 fs1 k2 e2 v2 = (none, s2, fs2) ∧
          s2.logFile = ⟨logFileId t2 suffix2, false⟩ ∧
          fs2.read (logFileId t2 suffix2) = some (recordBytes k2 e2 v2) := by
  obtain ⟨hs, hfs⟩ := CreateLogStore_empty hc
  have hopen : s.logFile.closed = false := by rw [hs]
  have hmax : s.maxLogFileBytes = 64 := by rw [hs]; rfl
  have hread : fs.read s.logFile.name = some [] := by
    rw [hfs, hs]
    simp [FS.read]
  have he0 : (0 : Int) ≤ e := by omega
  have hlo : 13 ≤ (formatInt e).length := by
    rw [formatInt_of_nonneg e he0]
    exact formatNat_length_ge 12 e.toNat (by omega)
  have hhi : (formatInt e).length ≤ 15 := by
    rw [formatInt_of_nonneg e he0]
    exact formatNat_length_le 14 e.toNat (by omega)
  have hk : formatInt (((str "a").length : Nat) : Int) = [49] := by decide
  have hv : formatInt ((value40.length : Nat) : Int) = [52, 48] := by decide
  have hv40 : value40.length = 40 := by decide
  have hline : (recordLine (str "a") e value40).length = (formatInt e).length + 8 := by
    simp only [recordLine, hk, hv, List.length_append, List.length_singleton, List.length_cons,
      List.length_nil]
    have : (str "a").length = 1 := by decide
    omega
  have hrec : (recordBytes (str "a") e value40).length = (formatInt e).length + 49 := by
    simp only [recordBytes, List.length_append, List.length_singleton, hline, hv40]
  obtain ⟨s1, fs1, hS⟩ := Set_quiet_ok s fs hopen ⟨[], hread⟩ now t suffix (str "a") e value40
  obtain ⟨size, f, fs1', pos, hst, hcase, hclosed, hfs1, hlf, hmax1, _⟩ := Set_ok hS
  have hsize : size = 0 := by
    have hb : (SetEnv.quiet now t suffix).statFails = false := rfl
    simp only [statSize, hb, hopen, Bool.or_self, Bool.false_eq_true, if_false, hread,
      Option.map_some', List.length_nil, Option.some.injEq] at hst
    exact hst.symm
  have hno : ¬ rollsOver size (str "a") e value40 s.maxLogFileBytes = true := by
    rw [rollsOver_iff, hsize, hmax, hrec]
    push_cast
    omega
  rcases hcase with ⟨_, hf, hfs1', _⟩ | ⟨hr, _⟩
  swap
  · exact absurd hr hno
  have hfs1eq : fs1 = [(s.logFile.name, recordBytes (str "a") e value40)] := by
    rw [hfs1, hfs1', hf, hfs, hs]
    simp [FS.append]
  refine ⟨s1, fs1, hS, by rw [hlf, hf], hfs1eq, ?_⟩
  intro now2 t2 suffix2 k2 e2 v2
  have hopen1 : s1.logFile.closed = false := by rw [hlf]; exact hclosed
  have hread1 : fs1.read s1.logFile.name = some (recordBytes (str "a") e value40) := by
    rw [hfs1eq, hlf, hf]
    simp [FS.read]
  obtain ⟨s2, fs2, hS2⟩ := Set_quiet_ok s1 fs1 hopen1 ⟨_, hread1⟩ now2 t2 suffix2 k2 e2 v2
  obtain ⟨size2, f2, fs2', pos2, hst2, hcase2, _, hfs2, hlf2, _, _⟩ := Set_ok hS2
  have hsize2 : size2 = (recordBytes (str "a") e value40).length := by
    have hb : (SetEnv.quiet now2 t2 suffix2).statFails = false := rfl
    simp only [statSize, hb, hopen1, Bool.or_self, Bool.false_eq_true, if_false, hread1,
      Option.map_some', Option.some.injEq] at hst2
    exact hst2.symm
  have hyes : rollsOver size2 k2 e2 v2 s1.maxLogFileBytes = true := by
    rw [rollsOver_iff, hsize2, hmax1, hmax, hrec]
    have := recordLine_length_ge k2 e2 v2
    simp only [recordBytes, List.length_append, List.length_singleton]
    push_cast
    omega
  rcases hcase2 with ⟨hr, _⟩ | ⟨_, _, hf2, hfs2', _⟩
  · rw [hyes] at hr
    cases hr
  · refine ⟨s2, fs2, hS2, by rw [hlf2, hf2]; rfl, ?_⟩
    rw [hfs2, hf2, hfs2']
    simp only [SetEnv.quiet]
    rw [FS.read_append, if_pos rfl, FS.read_create, if_pos rfl]
    rfl

/-- Witness for C12, amended: the expiry 5000000000000 on `store64`. -/
theorem rollover_scenario_witness :
    CreateLogStore (CreateEnv.quiet 1000 1 (str "a")) [] (some 64) =
        CreateResult.ok store64 fs0 ∧
      ∃ s1 fs1, Set (SetEnv.quiet 1000 2 (str "b")) store64 fs0 (str "a") 5000000000000
          value40 = (none, s1, fs1) ∧
        s1.logFile = store64.logFile ∧
        fs1 = [(store64.logFile.name, recordBytes (str "a") 5000000000000 value40)] ∧
        ∀ (now2 t2 : Int) (suffix2 k2 : Bytes) (e2 : Int) (v2 : Bytes),
          ∃ s2 fs2, Set (SetEnv.quiet now2 t2 suffix2) s1 fs1 k2 e2 v2 = (none, s2, fs2) ∧
            s2.logFile = ⟨logFileId t2 suffix2, false⟩ ∧
            fs2.read (logFileId t2 suffix2) = some (recordBytes k2 e2 v2) :=
  ⟨by decide,
    rollover_scenario (CreateEnv.quiet 1000 1 (str "a")) store64 fs0 (by decide)
      5000000000000 (by decide) (by decide) 1000 2 (str "b")⟩

/-- C13: a successful `Set` on a store whose active segment has `size` bytes
rolls over exactly when `size` plus the length of the full record exceeds the
threshold.  After a rollover the new segment holds exactly the record, which
thus starts at offset 0, and the index entry that is installed has the header
length as its value offset; without a rollover the record is appended to the
active segment and the value offset is `size` plus the header length. -/
theorem rollover_trigger (env : SetEnv) (s : Store) (fs : FS) (k : Bytes) (e : Int)
    (v : Bytes) (s' : Store) (fs' : FS) (h : Set env s fs k e v = (none, s', fs')) :
    ∃ size : Nat, statSize env.statFails s.logFile fs = some size ∧
      (rollsOver size k e v s.maxLogFileBytes = true ↔
        s.maxLogFileBytes < (size : Int) + ((recordBytes k e v).length : Int)) ∧
      (s.maxLogFileBytes < (size : Int) + ((recordBytes k e v).length : Int) →
        s'.logFile = ⟨logFileId env.nameTime env.suffix, false⟩ ∧
        fs'.read (logFileId env.nameTime env.suffix) = some (recordBytes k e v) ∧
        s'.mp = if e ≤ env.now then DeleteKey s.mp k
          else SetKey s.mp k ⟨logFileId env.nameTime env.suffix, e,
            (((recordLine k e v).length : Nat) : Int), (v.length : Int)⟩) ∧
      (¬ s.maxLogFileBytes < (size : Int) + ((recordBytes k e v).length : Int) →
        s'.logFile = s.logFile ∧
        fs' = fs.append s.logFile.name (recordBytes k e v) ∧
        s'.mp = if e ≤ env.now then DeleteKey s.mp k
          else SetKey s.mp k ⟨s.logFile.name, e,
            ((size + (recordLine k e v).length : Nat) : Int), (v.length : Int)⟩) := by
  obtain ⟨size, f, fs1, pos, hst, hcase, _, hfs, hlf, _, hmp⟩ := Set_ok h
  refine ⟨size, hst, rollsOver_iff size k e v s.maxLogFileBytes, ?_, ?_⟩
  · intro hgt
    rcases hcase with ⟨hr, _⟩ | ⟨_, _, hf, hfs1, hpos⟩
    · rw [(rollsOver_iff size k e v s.maxLogFileBytes).mpr hgt] at hr
      cases hr
    · refine ⟨by rw [hlf, hf], ?_, ?_⟩
      · rw [hfs, hf, hfs1, FS.read_append, if_pos rfl, FS.read_create, if_pos rfl]
        rfl
      · rw [hmp, hf, hpos]
        simp
  · intro hle
    rcases hcase with ⟨_, hf, hfs1, hpos⟩ | ⟨hr, _⟩
    · exact ⟨by rw [hlf, hf], by rw [hfs, hf, hfs1], by rw [hmp, hf, hpos]⟩
    · exact absurd ((rollsOver_iff size k e v s.maxLogFileBytes).mp hr) hle

/-- A result without error is the triple of `none` and its two components. -/
theorem result_eta {α β : Type} (p : Option Err × α × β) (h : p.1 = none) :
    p = (none, p.2.1, p.2.2) := by
  obtain ⟨a, b, c⟩ := p
  simp only at h
  rw [h]

/-- Witness for C13: the second `Set` of the rollover scenario rolls over. -/
theorem rollover_trigger_witness :
    rolled64.1 = none ∧
      ∃ size : Nat, statSize false filled64.2.1.logFile filled64.2.2 = some size ∧
        (rollsOver size (str "b") 5000000000000 (str "x") filled64.2.1.maxLogFileBytes = true ↔
          filled64.2.1.maxLogFileBytes <
            (size : Int) + ((recordBytes (str "b") 5000000000000 (str "x")).length : Int)) :=
  ⟨by decide,
    (rollover_trigger (SetEnv.quiet 1000 2 (str "b")) filled64.2.1 filled64.2.2 (str "b")
      5000000000000 (str "x") rolled64.2.1 rolled64.2.2
      (result_eta rolled64 (by decide))).imp
      (fun _ hx => ⟨hx.1, hx.2.1⟩)⟩

/-! ## Reads and appends: claims C14 and C17 -/

theorem GetKey_DeleteKey_any {V : Type} (m : mp V) (k k' : Bytes) :
    GetKey (DeleteKey m k) k' = if k' = k then none else GetKey m k' := by
  by_cases hk : k' = k
  · rw [hk, if_pos rfl]
    exact GetKey_DeleteKey_self m k
  · rw [if_neg hk]
    by_cases hlt : shardIndex k < m.length
    · unfold GetKey DeleteKey getShard
      by_cases hi : shardIndex k' = shardIndex k
      · rw [hi]
        simp only [List.getD_eq_getElem?_getD, List.getElem?_set_self hlt, Option.getD_some]
        rw [GoMap.get_delete, if_neg hk]
      · simp only [List.getD_eq_getElem?_getD, List.getElem?_set_ne (Ne.symm hi)]
    · have : DeleteKey m k = m := by
        unfold DeleteKey
        exact List.set_eq_of_length_le (Nat.le_of_not_lt hlt)
      rw [this]

/-- C14: for every store state, `Get` on a key whose index entry has an expiry
at or before the clock returns `(false, nil)`, writes nothing to the sink and
removes the key from the index; every other index entry, the active handle and
the threshold stay as they are.  `Get` on a key without index entry returns
`(false, nil)` and leaves the store as it is.  The directory is an input of
`Get` only, so no segment file changes. -/
theorem lazy_expiry_on_read (env : GetEnv) (s : Store) (fs : FS) (k : Bytes) :
    (∀ item, GetKey s.mp k = some item → item.expire ≤ env.now →
      Get env s fs k = (⟨false, none, []⟩, { s with mp := DeleteKey s.mp k }) ∧
        GetKey (DeleteKey s.mp k) k = none ∧
        ∀ k', k' ≠ k → GetKey (DeleteKey s.mp k) k' = GetKey s.mp k') ∧
      (GetKey s.mp k = none → Get env s fs k = (⟨false, none, []⟩, s)) := by
  refine ⟨?_, ?_⟩
  · intro item hk hexp
    refine ⟨?_, GetKey_DeleteKey_self s.mp k, ?_⟩
    · unfold Get
      simp only [hk, hexp, if_true]
    · intro k' hne
      rw [GetKey_DeleteKey_any, if_neg hne]
  · intro hk
    unfold Get
    simp only [hk]

/-- Witness for C14: the key `k` expires at 5000 and is read at clock 6000. -/
theorem lazy_expiry_on_read_witness :
    GetKey liveK.2.1.mp (str "k") = some ⟨str "1-a", 5000, 11, 1⟩ ∧
      (Get ⟨6000, false⟩ liveK.2.1 liveK.2.2 (str "k")).1 = ⟨false, none, []⟩ ∧
      GetKey store0.mp (str "k") = none ∧
      (Get ⟨6000, false⟩ store0 fs0 (str "k")).1 = ⟨false, none, []⟩ :=
  ⟨by decide,
    congrArg Prod.fst (((lazy_expiry_on_read ⟨6000, false⟩ liveK.2.1 liveK.2.2 (str "k")).1
      ⟨str "1-a", 5000, 11, 1⟩ (by decide) (by decide)).1),
    by decide,
    congrArg Prod.fst ((lazy_expiry_on_read ⟨6000, false⟩ store0 fs0 (str "k")).2
      (by decide))⟩

/-- C17: after a successful `Set`, the segment that is active holds its
previous content followed by exactly the new record, or the new record alone
when the `Set` rolled over to a new segment (whose name was not in use); every
other file, the segment that was rolled past included, reads as before.  The
expiry plays no part. -/
theorem log_is_append_only (env : SetEnv) (s : Store) (fs : FS) (k : Bytes) (e : Int)
    (v : Bytes) (s' : Store) (fs' : FS) (h : Set env s fs k e v = (none, s', fs'))
    (hfresh : FreshName env.nameTime env.suffix fs) :
    ∃ c0 : Bytes,
      ((s'.logFile = s.logFile ∧ fs.read s.logFile.name = some c0) ∨
        (s'.logFile = ⟨logFileId env.nameTime env.suffix, false⟩ ∧ c0 = [] ∧
          s.logFile.name ≠ s'.logFile.name ∧ fs.read s'.logFile.name = none)) ∧
      fs'.read s'.logFile.name = some (c0 ++ recordBytes k e v) ∧
      ∀ name, name ≠ s'.logFile.name → fs'.read name = fs.read name := by
  obtain ⟨c0, hnew, hother, hcase, _⟩ := Set_files h hfresh
  refine ⟨c0, ?_, hnew, hother⟩
  rcases hcase with ⟨_, hread, hlf⟩ | ⟨h0, hread, hlf⟩
  · exact Or.inl ⟨hlf, by rw [← hlf]; exact hread⟩
  · refine Or.inr ⟨hlf, h0, ?_, hread⟩
    intro heq
    obtain ⟨size, _, _, _, hst, _⟩ := Set_ok h
    unfold statSize at hst
    rw [heq, hread] at hst
    split at hst <;> simp at hst

/-- Witness for C17: the rollover of the scenario with threshold 64. -/
theorem log_is_append_only_witness :
    rolled64.1 = none ∧ FreshName 2 (str "b") filled64.2.2 ∧
      ∃ c0 : Bytes,
        ((rolled64.2.1.logFile = filled64.2.1.logFile ∧
            filled64.2.2.read filled64.2.1.logFile.name = some c0) ∨
          (rolled64.2.1.logFile = ⟨logFileId 2 (str "b"), false⟩ ∧ c0 = [] ∧
            filled64.2.1.logFile.name ≠ rolled64.2.1.logFile.name ∧
            filled64.2.2.read rolled64.2.1.logFile.name = none)) ∧
        rolled64.2.2.read rolled64.2.1.logFile.name =
          some (c0 ++ recordBytes (str "b") 5000000000000 (str "x")) ∧
        ∀ name, name ≠ rolled64.2.1.logFile.name →
          rolled64.2.2.read name = filled64.2.2.read name :=
  ⟨by decide, by decide,
    log_is_append_only (SetEnv.quiet 1000 2 (str "b")) filled64.2.1 filled64.2.2 (str "b")
      5000000000000 (str "x") rolled64.2.1 rolled64.2.2 (result_eta rolled64 (by decide))
      (by decide)⟩

/-! ## The code at failing inputs: claims C15, C16, C18, C19 and C20 -/

/-- C15, the code at a failing input: on a fresh store `Set` writes the record
of a key of 5000 bytes to a new segment.  `bufio.Reader.Read` hands out only
the 4084 bytes of the key that are in its buffer, the parser takes the rest of
the key for the next record, and `parseLogFile` fails on the segment that
`Set` wrote; so does the restart on that directory. -/
theorem long_key_record_not_recovered :
    (Set (SetEnv.quiet 1000 2 (str "b")) store0 fs0 bigKey 5000 (str "v")).1 = none ∧
      (Set (SetEnv.quiet 1000 2 (str "b")) store0 fs0 bigKey 5000 (str "v")).2.2 =
        [(str "2-b", recordBytes bigKey 5000 (str "v")), (str "1-a", [])] ∧
      parseLogFile (str "2-b") 1000 (recordBytes bigKey 5000 (str "v")) =
        ParseResult.error Err.parseExpire ∧
      CreateLogStore (CreateEnv.quiet 1000 3 (str "c"))
          [(str "2-b", recordBytes bigKey 5000 (str "v")), (str "1-a", [])] none =
        CreateResult.error Err.parseExpire := by
  decide!

/-- C16, the code at a failing input: `k` is written with a future expiry and
then deleted, both records in one segment.  The index before the restart has
no entry for `k`; the index that `CreateLogStore` builds from the segment has
one, because the expired record deleted the key `k,` from the items. -/
theorem expired_record_leaves_entry :
    deletedK.2.2 = [(str "1-a", str "5000,1,1,k,v,0,1,0,k,,")] ∧
      GetKey deletedK.2.1.mp (str "k") = none ∧
      parseLogFile (str "1-a") 1000 (str "5000,1,1,k,v,0,1,0,k,,") =
        ParseResult.ok [(str "k", ⟨str "1-a", 5000, 11, 1⟩)] ∧
      restartedK = CreateResult.ok resurrected deletedK.2.2 ∧
      GetKey resurrected.mp (str "k") = some ⟨str "1-a", 5000, 11, 1⟩ := by
  decide

/-- C18, the code at a failing input: with threshold 64 the second `Set` has
to roll over and `os.Create` fails.  `Set` returns the error, the deferred
`Close` of `nextLogFile` has closed the old handle, and the store keeps that
closed handle: no file is open for appending and the next `Set` fails in
`Stat`. -/
theorem failed_rollover_closes_handle :
    CreateLogStore (CreateEnv.quiet 1000 1 (str "a")) [] (some 64) =
        CreateResult.ok store64 fs0 ∧
      filled64.1 = none ∧ filled64.2.1.logFile = ⟨str "1-a", false⟩ ∧
      failedRoll.1 = some Err.create ∧
      failedRoll.2.1.logFile = ⟨str "1-a", true⟩ ∧
      (Set (SetEnv.quiet 1000 2 (str "b")) failedRoll.2.1 failedRoll.2.2 (str "b")
        5000000000000 (str "x")).1 = some Err.stat := by
  decide

/-- C19, the code at a failing input: a segment whose key length reads `-2`.
`make([]byte, keysize+1)` is called with length `-1` and panics, and so does
`CreateLogStore`. -/
theorem negative_keysize_panics :
    parseLogFile (str "1-a") 1000 (str "5,-2,1,") = ParseResult.panic ∧
      parseLogFile (str "1-a") 1000 (str "5,-1,1,") = ParseResult.panic ∧
      CreateLogStore (CreateEnv.quiet 1000 3 (str "c")) [(str "1-a", str "5,-2,1,")] none =
        CreateResult.panic := by
  decide

/-- C20, the code at a failing input: after `Set("k", 5000, "v")`, the delete
`Set("k", 0, "")` and a restart, the state is reachable and its index has an
entry for `k` whose bytes are `v`, the value of the first `Set`, while the last
`Set` for `k` wrote the empty value; `Get("k")` returns `v`. -/
theorem resurrected_entry_holds_old_value :
    Reachable MAX_LOG_FILE_BYTES resurrected deletedK.2.2 ∧
      GetKey resurrected.mp (str "k") = some ⟨str "1-a", 5000, 11, 1⟩ ∧
      valueBytes ⟨str "1-a", 5000, 11, 1⟩ (str "5000,1,1,k,v,0,1,0,k,,") = str "v" ∧
      (Get ⟨1000, false⟩ deletedK.2.1 deletedK.2.2 (str "k")).1 = ⟨false, none, []⟩ ∧
      (Get ⟨1000, false⟩ resurrected deletedK.2.2 (str "k")).1 = ⟨true, none, str "v"⟩ :=
  ⟨Reachable.restart (CreateEnv.quiet 1000 3 (str "c")) deletedK.2.1 deletedK.2.2
      resurrected deletedK.2.2
      (Reachable.set (SetEnv.quiet 1000 2 (str "b")) liveK.2.1 liveK.2.2 (str "k") 0 []
        deletedK.2.1 deletedK.2.2
        (Reachable.set (SetEnv.quiet 1000 2 (str "b")) store0 fs0 (str "k") 5000 (str "v")
          liveK.2.1 liveK.2.2
          (Reachable.create (CreateEnv.quiet 1000 1 (str "a")) none store0 fs0 rfl
            (by decide))
          (by decide) (result_eta liveK (by decide)))
        (by decide) (result_eta deletedK (by decide)))
      (by decide) (by decide),
    by decide, by decide, by decide, by decide⟩

/-! ## The size of the segments: claim C5 -/

/-- A `Set` that returns an error although its `Write` does not fail has
failed in `Stat` or in the creation of the next segment: no file changes. -/
theorem Set_err_files {env : SetEnv} {s : Store} {fs : FS} {k : Bytes} {e : Int}
    {v : Bytes} {err : Err} {s' : Store} {fs' : FS}
    (h : Set env s fs k e v = (some err, s', fs')) (hw : env.written = none) :
    fs' = fs ∧ s'.maxLogFileBytes = s.maxLogFileBytes := by
  unfold Set at h
  cases hst : statSize env.statFails s.logFile fs with
  | none =>
    simp only [hst, Prod.mk.injEq] at h
    exact ⟨h.2.2.symm, by rw [← h.2.1]⟩
  | some size =>
    simp only [hst] at h
    cases hr : rollsOver size k e v s.maxLogFileBytes with
    | false =>
      simp only [hr, Bool.false_eq_true, if_false] at h
      unfold writeFile at h
      rw [hw] at h
      cases hc : s.logFile.closed with
      | true =>
        simp only [hc, if_true, Prod.mk.injEq] at h
        exact ⟨h.2.2.symm, by rw [← h.2.1]⟩
      | false =>
        simp only [hc, Bool.false_eq_true, if_false] at h
        split at h <;> simp at h
    | true =>
      simp only [hr, if_true] at h
      unfold nextLogFile createLogFile at h
      cases hcf : env.createFails with
      | true =>
        simp only [hcf, if_true, Prod.mk.injEq] at h
        exact ⟨h.2.2.symm, by rw [← h.2.1]⟩
      | false =>
        simp only [hcf, Bool.false_eq_true, if_false] at h
        unfold writeFile at h
        rw [hw] at h
        simp only [Bool.false_eq_true, if_false] at h
        split at h <;> simp at h

/-- A successful `Set` keeps the size bound, whatever name the new segment
gets. -/
theorem SizeOk_Set_any {env : SetEnv} {s : Store} {fs : FS} {k : Bytes} {e : Int}
    {v : Bytes} {s' : Store} {fs' : FS} (h : Set env s fs k e v = (none, s', fs'))
    (hs : SizeOk s.maxLogFileBytes fs) : SizeOk s.maxLogFileBytes fs' := by
  obtain ⟨size, f, fs1, pos, hst, hcase, _, hfs, _, _, _⟩ := Set_ok h
  apply SizeOk_of_read _ hs
  intro name c hc
  rw [hfs, FS.read_append] at hc
  rcases hcase with ⟨hr, hf, hfs1, _⟩ | ⟨_, _, hf, hfs1, _⟩
  · rw [hfs1] at hc
    split at hc
    · unfold statSize at hst
      rw [hf] at hc
      cases hread : fs.read s.logFile.name with
      | none =>
        rw [hread] at hc
        simp at hc
      | some c0 =>
        rw [hread] at hc hst
        simp only [Option.map_some', Option.some.injEq] at hc
        have hsz : c0.length = size := by
          split at hst
          · simp at hst
          · simpa using hst
        right
        left
        rw [← hc]
        simp only [rollsOver, decide_eq_false_iff_not] at hr
        simp only [recordBytes, List.length_append, List.length_singleton]
        push_cast at hr ⊢
        omega
    · exact Or.inl hc
  · rw [hfs1] at hc
    split at hc
    · rw [hf] at hc
      simp only [FS.read_create, if_true, Option.map_some', List.nil_append,
        Option.some.injEq] at hc
      exact Or.inr (Or.inr ⟨k, e, v, hc.symm⟩)
    · rename_i hne
      rw [hf] at hne
      rw [FS.read_create, if_neg hne] at hc
      exact Or.inl hc

theorem nodup_Set {env : SetEnv} {s : Store} {fs : FS} {k : Bytes} {e : Int}
    {v : Bytes} {s' : Store} {fs' : FS} (h : Set env s fs k e v = (none, s', fs'))
    (hn : (fs.map Prod.fst).Nodup) : (fs'.map Prod.fst).Nodup := by
  obtain ⟨size, f, fs1, pos, _, hcase, _, hfs, _, _, _⟩ := Set_ok h
  rw [hfs, FS.names_append]
  rcases hcase with ⟨_, _, hfs1, _⟩ | ⟨_, _, _, hfs1, _⟩
  · rw [hfs1]
    exact hn
  · rw [hfs1]
    exact FS.nodup_create fs hn _

theorem nodup_CreateLogStore {env : CreateEnv} {fs : FS} {opts : Option Int} {s : Store}
    {fs' : FS} (h : CreateLogStore env fs opts = CreateResult.ok s fs')
    (hn : (fs.map Prod.fst).Nodup) : (fs'.map Prod.fst).Nodup := by
  obtain ⟨_, _, _, hcase⟩ := CreateLogStore_ok h
  rcases hcase with ⟨_, hfs'⟩ | ⟨hfs', _⟩
  · rw [hfs']
    exact FS.nodup_create fs hn _
  · rw [hfs']
    exact hn

/-- The invariant of the driven states: the threshold is `M`, no file name
occurs twice, and every segment has at most `M` bytes or is one record. -/
theorem Driven_inv {M : Int} (hM : 0 ≤ M) {s : Store} {fs : FS} (h : Driven M s fs) :
    s.maxLogFileBytes = M ∧ (fs.map Prod.fst).Nodup ∧ SizeOk M fs := by
  induction h with
  | create env opts s fs hopts hc =>
    refine ⟨?_, nodup_CreateLogStore hc (by simp), ?_⟩
    · rw [(CreateLogStore_ok hc).2.1, hopts]
    · exact SizeOk_CreateLogStore hM hc (fun name c hr => by simp [FS.read] at hr)
  | set env s fs k e v r s' fs' _ hw hset ih =>
    obtain ⟨hmax, hn, hs⟩ := ih
    cases r with
    | none =>
      refine ⟨?_, nodup_Set hset hn, ?_⟩
      · obtain ⟨_, _, _, _, _, _, _, _, _, hm, _⟩ := Set_ok hset
        rw [hm, hmax]
      · have := SizeOk_Set_any hset (by rw [hmax]; exact hs)
        rw [hmax] at this
        exact this
    | some err =>
      obtain ⟨hfs, hm⟩ := Set_err_files hset hw
      rw [hfs, hm]
      exact ⟨hmax, hn, hs⟩
  | get env s fs k r s' _ hget ih =>
    obtain ⟨hmax, hn, hs⟩ := ih
    exact ⟨by rw [(Get_store hget).2.1, hmax], hn, hs⟩
  | restart env s fs s' fs' _ hc ih =>
    obtain ⟨_, hn, hs⟩ := ih
    refine ⟨?_, nodup_CreateLogStore hc hn, SizeOk_CreateLogStore hM hc hs⟩
    rw [(CreateLogStore_ok hc).2.1]
    rfl

theorem recordBytes_getLast (k : Bytes) (e : Int) (v : Bytes) :
    (recordBytes k e v).getLast? = some COMMA := by
  unfold recordBytes
  exact List.getLast?_concat _

/-- C5, as the claim states it, fails: with threshold 64, after
`Set("a", 5000000000000, value40)` a second `Set` rolls over and its `Write`
stops after 70 bytes.  `Set` returns the write error, and the new segment holds
70 bytes, more than the threshold, that end in the middle of the value and so
are not one record. -/
theorem partial_write_breaks_size_bound :
    CreateLogStore (CreateEnv.quiet 1000 1 (str "a")) [] (some 64) =
        CreateResult.ok store64 fs0 ∧
      filled64.1 = none ∧
      partialRoll.1 = some Err.write ∧
      partialRoll.2.2 =
        [(str "2-b", partialBytes), (str "1-a", recordBytes (str "a") 5000000000000 value40)] ∧
      partialBytes.length = 70 ∧
      ¬ ((partialBytes.length : Int) ≤ 64) ∧
      ¬ ∃ k e v, partialBytes = recordBytes k e v := by
  refine ⟨by decide, by decide, by decide!, by decide!, by decide!, by decide!, ?_⟩
  rintro ⟨k, e, v, h⟩
  have h1 : partialBytes.getLast? = some 120 := by decide!
  rw [h, recordBytes_getLast] at h1
  exact absurd h1 (by decide)

/-- C5, amended: for a store created on an empty directory with a positive
threshold `M` and driven by `Set` calls whose `Write` does not fail (they
succeed, or fail in `Stat` or in the creation of the next segment), by `Get`
calls and by restarts with the same `M`, every segment file of every state has
at most `M` bytes or is exactly one record; so no segment exceeds `M` by more
than the length of one record. -/
theorem segment_size_bound (M : Int) (hM : 0 < M) (s : Store) (fs : FS)
    (hdriven : Driven M s fs) :
    ∀ p ∈ fs, (p.2.length : Int) ≤ M ∨
      ∃ k e v, p.2 = recordBytes k e v ∧
        (p.2.length : Int) ≤ M + ((recordBytes k e v).length : Int) := by
  intro p hp
  obtain ⟨_, hn, hs⟩ := Driven_inv (le_of_lt hM) hdriven
  have hread := FS.read_of_mem fs hn p.1 p.2 hp
  rcases hs p.1 p.2 hread with h | ⟨k, e, v, h⟩
  · exact Or.inl h
  · refine Or.inr ⟨k, e, v, h, ?_⟩
    rw [← h]
    omega

/-- The `Write` of a successful `Set` did not fail. -/
theorem Set_ok_written {env : SetEnv} {s : Store} {fs : FS} {k : Bytes} {e : Int}
    {v : Bytes} {s' : Store} {fs' : FS} (h : Set env s fs k e v = (none, s', fs')) :
    env.written = none := by
  unfold Set at h
  cases hst : statSize env.statFails s.logFile fs with
  | none => simp [hst] at h
  | some size =>
    simp only [hst] at h
    cases hr : rollsOver size k e v s.maxLogFileBytes with
    | false =>
      simp only [hr, Bool.false_eq_true, if_false] at h
      have hclosed : s.logFile.closed = false := by
        unfold statSize at hst
        cases hc : s.logFile.closed with
        | false => rfl
        | true => simp [hc] at hst
      unfold writeFile at h
      simp only [hclosed, Bool.false_eq_true, if_false] at h
      cases hw : env.written with
      | some n => simp [hw] at h
      | none => rfl
    | true =>
      simp only [hr, if_true] at h
      unfold nextLogFile createLogFile at h
      cases hcf : env.createFails with
      | true => simp [hcf] at h
      | false =>
        simp only [hcf, Bool.false_eq_true, if_false] at h
        unfold writeFile at h
        simp only [Bool.false_eq_true, if_false] at h
        cases hw : env.written with
        | some n => simp [hw] at h
        | none => rfl

/-- Every state of the failure-free engine is a driven state. -/
theorem Driven_of_Reachable {M : Int} {s : Store} {fs : FS} (h : Reachable M s fs) :
    Driven M s fs := by
  induction h with
  | create env opts s fs hM hc => exact Driven.create env opts s fs hM hc
  | set env s fs k e v s' fs' _ _ hset ih =>
    exact Driven.set env s fs k e v none s' fs' ih (Set_ok_written hset) hset
  | get env s fs k r s' _ hget ih => exact Driven.get env s fs k r s' ih hget
  | restart env s fs s' fs' _ _ hc ih => exact Driven.restart env s fs s' fs' ih hc

/-- Witness for C5, amended: with threshold 64, the state after a `Set` that
succeeds and a `Set` that fails in the creation of the next segment. -/
theorem segment_size_bound_witness :
    (0 : Int) < 64 ∧ Driven 64 failedRoll.2.1 failedRoll.2.2 ∧
      failedRoll.1 = some Err.create ∧
      (((str "1-a", recordBytes (str "a") 5000000000000 value40) :
          FileName × Bytes).2.length : Int) ≤ 64 :=
  ⟨by decide,
    Driven.set ⟨false, 2, str "b", true, none, 1000⟩ filled64.2.1 filled64.2.2 (str "b")
      5000000000000 (str "x") failedRoll.1 failedRoll.2.1 failedRoll.2.2
      (Driven.set (SetEnv.quiet 1000 2 (str "b")) store64 fs0 (str "a") 5000000000000 value40
        filled64.1 filled64.2.1 filled64.2.2
        (Driven.create (CreateEnv.quiet 1000 1 (str "a")) (some 64) store64 fs0 rfl
          (by decide))
        rfl rfl)
      rfl rfl,
    by decide,
    (segment_size_bound 64 (by decide) failedRoll.2.1 failedRoll.2.2
      (Driven.set ⟨false, 2, str "b", true, none, 1000⟩ filled64.2.1 filled64.2.2 (str "b")
        5000000000000 (str "x") failedRoll.1 failedRoll.2.1 failedRoll.2.2
        (Driven.set (SetEnv.quiet 1000 2 (str "b")) store64 fs0 (str "a") 5000000000000
          value40 filled64.1 filled64.2.1 filled64.2.2
          (Driven.create (CreateEnv.quiet 1000 1 (str "a")) (some 64) store64 fs0 rfl
            (by decide))
          rfl rfl)
        rfl rfl)
      (str "1-a", recordBytes (str "a") 5000000000000 value40) (by decide)).elim id
      (fun _ => by decide)⟩

end Bitcask
